import Mathlib

/-!
Verification development for the tudiff directory-comparison tool.

The definitions below are a shallow embedding of the core comparison engine
(src/compare.rs) and the interactive application state machine (src/app.rs):
relative paths become lists of components, scanned `fs::Metadata` becomes a
small record, filesystem reads become explicit `Option` values (`none` models
an I/O error), and the two mutable trees of the Rust code are threaded as
explicit values.
-/

namespace Tudiff

/-- `FileStatus` from src/compare.rs. -/
inductive FStatus where
  | same
  | different
  | leftOnly
  | rightOnly
deriving DecidableEq, Repr

/-- The fields of `fs::Metadata` that compare.rs consumes: `is_dir()`, `len()`,
`modified()` (the modification time is abstracted to an optional tick count). -/
structure FsMeta where
  isDir : Bool
  len : Nat
  modified : Option Nat
deriving DecidableEq, Repr

/-- A relative path, as its list of components (`PathBuf::components`). -/
abbrev RPath := List String

/-- `path.file_name().unwrap_or_default()`: the last component, `""` for the
empty path. -/
def lastComp (p : RPath) : String := p.getLastD ""

/-- `FileNode` from src/compare.rs. -/
inductive FileNode where
  | mk (name : String) (path : RPath) (isDir : Bool) (status : FStatus)
      (children : List FileNode) (expanded : Bool) (size : Option Nat)
      (modified : Option Nat)
deriving Repr

namespace FileNode

def name : FileNode → String
  | mk n _ _ _ _ _ _ _ => n

def path : FileNode → RPath
  | mk _ p _ _ _ _ _ _ => p

def isDir : FileNode → Bool
  | mk _ _ d _ _ _ _ _ => d

def status : FileNode → FStatus
  | mk _ _ _ st _ _ _ _ => st

def children : FileNode → List FileNode
  | mk _ _ _ _ cs _ _ _ => cs

def expanded : FileNode → Bool
  | mk _ _ _ _ _ e _ _ => e

def size : FileNode → Option Nat
  | mk _ _ _ _ _ _ sz _ => sz

def modified : FileNode → Option Nat
  | mk _ _ _ _ _ _ _ md => md

/-- `FileNode::new`: fresh node, no children, collapsed, no metadata. -/
def new (name : String) (path : RPath) (isDir : Bool) (status : FStatus) : FileNode :=
  mk name path isDir status [] false none none

/-- `FileNode::new_with_metadata`: size is dropped for directories. -/
def newWithMeta (name : String) (path : RPath) (isDir : Bool) (status : FStatus)
    (meta : Option FsMeta) : FileNode :=
  match meta with
  | none => mk name path isDir status [] false none none
  | some m => mk name path isDir status [] false
      (if isDir then none else some m.len) m.modified

def setStatus (n : FileNode) (st : FStatus) : FileNode :=
  match n with
  | mk nm p d _ cs e sz md => mk nm p d st cs e sz md

def withChildren (n : FileNode) (cs : List FileNode) : FileNode :=
  match n with
  | mk nm p d st _ e sz md => mk nm p d st cs e sz md

/-- Set the node's own `expanded` flag to `true` (used on roots). -/
def rootExpanded (n : FileNode) : FileNode :=
  match n with
  | mk nm p d st cs _ sz md => mk nm p d st cs true sz md

@[simp] theorem name_mk (n : String) (p : RPath) (d : Bool) (st : FStatus)
    (cs : List FileNode) (e : Bool) (sz md : Option Nat) :
    (mk n p d st cs e sz md).name = n := rfl

@[simp] theorem path_mk (n : String) (p : RPath) (d : Bool) (st : FStatus)
    (cs : List FileNode) (e : Bool) (sz md : Option Nat) :
    (mk n p d st cs e sz md).path = p := rfl

@[simp] theorem isDir_mk (n : String) (p : RPath) (d : Bool) (st : FStatus)
    (cs : List FileNode) (e : Bool) (sz md : Option Nat) :
    (mk n p d st cs e sz md).isDir = d := rfl

@[simp] theorem status_mk (n : String) (p : RPath) (d : Bool) (st : FStatus)
    (cs : List FileNode) (e : Bool) (sz md : Option Nat) :
    (mk n p d st cs e sz md).status = st := rfl

@[simp] theorem children_mk (n : String) (p : RPath) (d : Bool) (st : FStatus)
    (cs : List FileNode) (e : Bool) (sz md : Option Nat) :
    (mk n p d st cs e sz md).children = cs := rfl

@[simp] theorem expanded_mk (n : String) (p : RPath) (d : Bool) (st : FStatus)
    (cs : List FileNode) (e : Bool) (sz md : Option Nat) :
    (mk n p d st cs e sz md).expanded = e := rfl

@[simp] theorem size_mk (n : String) (p : RPath) (d : Bool) (st : FStatus)
    (cs : List FileNode) (e : Bool) (sz md : Option Nat) :
    (mk n p d st cs e sz md).size = sz := rfl

@[simp] theorem modified_mk (n : String) (p : RPath) (d : Bool) (st : FStatus)
    (cs : List FileNode) (e : Bool) (sz md : Option Nat) :
    (mk n p d st cs e sz md).modified = md := rfl

end FileNode

/-- The child-lookup predicate of `insert_into_tree`:
`child.path.file_name().unwrap_or_default() == component`. -/
def findChild? (cs : List FileNode) (c : String) : Option FileNode :=
  cs.find? (fun ch => decide (lastComp ch.path = c))

/-- Replace the first child whose `path.file_name()` is `c` (the in-place
mutation `current.children[index] = ...` of the Rust loop). -/
def replaceChild (c : String) (n : FileNode) : List FileNode → List FileNode
  | [] => []
  | ch :: rest =>
      if lastComp ch.path = c then n :: rest else ch :: replaceChild c n rest

/-- The component loop of `DirectoryComparison::insert_into_tree`. `pre` is the
prefix of components already consumed, so created nodes get path
`pre ++ [component]` (`components.iter().take(i + 1).collect()`). -/
def insertGo (name : String) (isDir : Bool) (status : FStatus)
    (meta : Option FsMeta) : RPath → RPath → FileNode → FileNode
  | _, [], cur => cur
  | pre, c :: rest, cur =>
      match findChild? cur.children c with
      | some ch =>
          let ch0 := if rest = [] then ch.setStatus status else ch
          let ch1 := insertGo name isDir status meta (pre ++ [c]) rest ch0
          cur.withChildren (replaceChild c ch1 cur.children)
      | none =>
          let newNode :=
            if rest = [] then FileNode.newWithMeta name (pre ++ [c]) isDir status meta
            else FileNode.new c (pre ++ [c]) true .same
          let ch1 := insertGo name isDir status meta (pre ++ [c]) rest newNode
          cur.withChildren (cur.children ++ [ch1])

/-- `DirectoryComparison::insert_into_tree` (the `_exists` argument is unused in
the source as well). -/
def insertIntoTree (root : FileNode) (p : RPath) (name : String) (isDir : Bool)
    (status : FStatus) (_exists : Bool) (meta : Option FsMeta) : FileNode :=
  insertGo name isDir status meta [] p root

/-- The `is_dir` of the path loop: the left metadata's flag if present, else
the right's, else false. -/
def declDir (lookL lookR : RPath → Option FsMeta) (p : RPath) : Bool :=
  ((lookL p).map FsMeta.isDir).getD (((lookR p).map FsMeta.isDir).getD false)

/-- The `status` computation of the path loop (`None` models an oracle
error). -/
def declStatus? (lookL lookR : RPath → Option FsMeta) (oracle : RPath → Option Bool)
    (p : RPath) : Option FStatus :=
  match lookL p, lookR p with
  | some _, none => some .leftOnly
  | none, some _ => some .rightOnly
  | some _, some _ =>
      if declDir lookL lookR p then some .same
      else (oracle p).map (fun b => if b then FStatus.same else FStatus.different)
  | none, none => some .same

/-- One iteration of the path loop in
`DirectoryComparison::compare_trees_with_progress`. The Equality Oracle
(`files_are_same`) is abstracted as `oracle : RPath → Option Bool`; `none`
models the `Err` case, which aborts the whole comparison. -/
def processPath (lookL lookR : RPath → Option FsMeta) (oracle : RPath → Option Bool)
    (acc : FileNode × FileNode) (p : RPath) : Option (FileNode × FileNode) :=
  if p = [] then some acc
  else
    let name := lastComp p
    let isDir := declDir lookL lookR p
    match declStatus? lookL lookR oracle p with
    | none => none
    | some st =>
        match st with
        | .leftOnly =>
            some (insertIntoTree acc.1 p name isDir st false (lookL p),
                  insertIntoTree acc.2 p "" isDir st true none)
        | .rightOnly =>
            some (insertIntoTree acc.1 p "" isDir st true none,
                  insertIntoTree acc.2 p name isDir st false (lookR p))
        | _ =>
            some (insertIntoTree acc.1 p name isDir st false (lookL p),
                  insertIntoTree acc.2 p name isDir st false (lookR p))

/-- The name used by the child comparator of `sort_tree_recursive`: the display
name, falling back to `path.file_name()` when the name is blank. -/
def effName (n : FileNode) : String :=
  if n.name = "" then lastComp n.path else n.name

/-- The comparator of `sort_tree_recursive` as a total preorder: folders first,
then case-insensitive comparison of the effective name.  `nodeLe a b` holds
exactly when the Rust comparator returns `Less` or `Equal`, so Rust's stable
`sort_by` produces the same list as a stable insertion sort by `nodeLe`. -/
def nodeLe (a b : FileNode) : Prop :=
  if a.isDir = b.isDir then (effName a).toLower ≤ (effName b).toLower
  else a.isDir = true

instance : DecidableRel nodeLe := fun a b => by
  unfold nodeLe
  infer_instance

theorem sizeOf_perm {α : Type} [SizeOf α] {l l' : List α} (h : l.Perm l') :
    sizeOf l = sizeOf l' :=
  h.sizeOf_eq_sizeOf

theorem sizeOf_insertionSort {α : Type} [SizeOf α] (r : α → α → Prop)
    [DecidableRel r] (l : List α) :
    sizeOf (List.insertionSort r l) = sizeOf l :=
  sizeOf_perm (List.perm_insertionSort r l)

mutual

/-- `DirectoryComparison::sort_tree_recursive`: stable-sort this node's
children by the comparator, then recursively sort each child. -/
def sortTree : FileNode → FileNode
  | .mk nm p d st cs e sz md =>
      .mk nm p d st (sortForest (List.insertionSort nodeLe cs)) e sz md
  termination_by t => sizeOf t
  decreasing_by
    simp only [sizeOf_insertionSort, FileNode.mk.sizeOf_spec]
    omega

def sortForest : List FileNode → List FileNode
  | [] => []
  | c :: cs => sortTree c :: sortForest cs
  termination_by l => sizeOf l
  decreasing_by
    all_goals simp only [List.cons.sizeOf_spec]
    all_goals omega

end

/-- The `let st' :=` block of `update_folder_status`: the new status of a
directory, as a function of the old status and the children's statuses. -/
def foldStatus (st : FStatus) (sts : List FStatus) : FStatus :=
  if sts = [] then st
  else if sts.any (fun s => decide (s = .different)) then FStatus.different
  else if sts.any (fun s => decide (s = .leftOnly)) &&
          sts.any (fun s => decide (s = .rightOnly)) then FStatus.different
  else if sts.any (fun s => decide (s = .leftOnly)) &&
          sts.any (fun s => decide (s = .same)) then FStatus.different
  else if sts.any (fun s => decide (s = .rightOnly)) &&
          sts.any (fun s => decide (s = .same)) then FStatus.different
  else if sts.any (fun s => decide (s = .leftOnly)) then FStatus.leftOnly
  else if sts.any (fun s => decide (s = .rightOnly)) then FStatus.rightOnly
  else FStatus.same

mutual

/-- `DirectoryComparison::update_folder_status`: bottom-up recomputation of
directory statuses from the (already updated) children. -/
def updateFolderStatus : FileNode → FileNode
  | .mk nm p d st cs e sz md =>
      if d then
        let cs' := updForest cs
        .mk nm p d (foldStatus st (cs'.map FileNode.status)) cs' e sz md
      else .mk nm p d st cs e sz md

def updForest : List FileNode → List FileNode
  | [] => []
  | c :: cs => updateFolderStatus c :: updForest cs

end

/-- The root nodes built at the top of `compare_trees_with_progress`: the
absolute root paths are modelled as the empty relative path, and the roots
start expanded. -/
def mkRoot (nm : String) : FileNode :=
  .mk nm [] true .same [] true none none

/-- `DirectoryComparison::compare_trees_with_progress` on an explicit list of
union paths: fold the per-path insertion, then sort both trees and update both
folder statuses. -/
def compareTreesPure (lname rname : String) (lookL lookR : RPath → Option FsMeta)
    (oracle : RPath → Option Bool) (paths : List RPath) :
    Option (FileNode × FileNode) :=
  (paths.foldlM (processPath lookL lookR oracle) (mkRoot lname, mkRoot rname)).map
    (fun lr => (updateFolderStatus (sortTree lr.1), updateFolderStatus (sortTree lr.2)))

/-- Lookup in a scanned metadata mapping (`HashMap<PathBuf, Metadata>`),
modelled as an association list. -/
def lookupMeta (l : List (RPath × FsMeta)) (p : RPath) : Option FsMeta :=
  (l.find? (fun q => decide (q.1 = p))).map Prod.snd

/-- Component-wise lexicographic order on relative paths: the iteration order
of `BTreeSet<PathBuf>` over path components. -/
def pathLeB : RPath → RPath → Bool
  | [], _ => true
  | _ :: _, [] => false
  | a :: as, b :: bs => if a = b then pathLeB as bs else decide (a < b)

def pathLe (p q : RPath) : Prop := pathLeB p q = true

instance : DecidableRel pathLe := fun p q => by
  unfold pathLe
  infer_instance

/-- The `BTreeSet` union of the two scans' key sets, in lexicographic order. -/
def unionPaths (left right : List (RPath × FsMeta)) : List RPath :=
  List.insertionSort pathLe ((left.map Prod.fst ++ right.map Prod.fst).dedup)

/-- The whole pure pipeline of `compare_trees_with_progress` for two scanned
metadata mappings. -/
def fullCompare (lname rname : String) (left right : List (RPath × FsMeta))
    (oracle : RPath → Option Bool) : Option (FileNode × FileNode) :=
  compareTreesPure lname rname (lookupMeta left) (lookupMeta right) oracle
    (unionPaths left right)

/-- Walk a tree down a relative path, selecting children exactly the way
`insert_into_tree` does (first child whose `path.file_name()` matches the
component). -/
def findPath : FileNode → RPath → Option FileNode
  | n, [] => some n
  | n, c :: rest =>
      match findChild? n.children c with
      | some ch => findPath ch rest
      | none => none

mutual

/-- Structural alignment of the two trees: equal relative path, is-directory
flag, status and expansion state at every node, and children lists of equal
length, aligned position by position.  Display names and metadata are allowed
to differ (a placeholder faces a real node). -/
def mirror : FileNode → FileNode → Bool
  | .mk _ p d st cs e _ _, .mk _ p' d' st' cs' e' _ _ =>
      decide (p = p') && decide (d = d') && decide (st = st') && decide (e = e') &&
        mirrorList cs cs'

def mirrorList : List FileNode → List FileNode → Bool
  | [], [] => true
  | _ :: _, [] => false
  | [], _ :: _ => false
  | a :: as, b :: bs => mirror a b && mirrorList as bs

end

mutual

/-- Every node below (and including) this one has a display name that is
either blank or equal to the last component of its path — true of every node
the tree builder creates. -/
def treeNamesOk : FileNode → Bool
  | .mk nm p _ _ cs _ _ _ =>
      (decide (nm = "") || decide (nm = lastComp p)) && forestNamesOk cs

def forestNamesOk : List FileNode → Bool
  | [] => true
  | c :: cs => treeNamesOk c && forestNamesOk cs

end

mutual

/-- Well-formedness the builder maintains: sibling keys
(`path.file_name()`) are distinct, and every child's path extends its
parent's path by exactly its own last component. -/
def wfTree : FileNode → Bool
  | .mk _ p _ _ cs _ _ _ =>
      decide ((cs.map (fun ch => lastComp ch.path)).Nodup) &&
        cs.all (fun ch => decide (ch.path = p ++ [lastComp ch.path])) &&
        wfForest cs

def wfForest : List FileNode → Bool
  | [] => true
  | c :: cs => wfTree c && wfForest cs

end

mutual

/-- Every node in this subtree carries status `s`. -/
def allStatus (s : FStatus) : FileNode → Bool
  | .mk _ _ _ st cs _ _ _ => decide (st = s) && allStatusForest s cs

def allStatusForest (s : FStatus) : List FileNode → Bool
  | [] => true
  | c :: cs => allStatus s c && allStatusForest s cs

end

/-! ### The Equality Oracle (`files_are_same` and its helpers) -/

/-- One bit of the reflected CRC-32 update (polynomial `0xEDB88320`), the
checksum computed by the `crc32fast::Hasher` used in `calculate_file_crc32`. -/
def crc32Step (c : Nat) : Nat :=
  if c % 2 = 1 then (c / 2) ^^^ 0xEDB88320 else c / 2

/-- Fold one byte into the running CRC-32 state (eight bit steps). -/
def crc32Byte (c b : Nat) : Nat :=
  crc32Step (crc32Step (crc32Step (crc32Step
    (crc32Step (crc32Step (crc32Step (crc32Step (c ^^^ b))))))))

/-- CRC-32 of a byte stream: initial state `0xFFFFFFFF`, final complement. -/
def crc32 (bs : List Nat) : Nat :=
  (bs.foldl crc32Byte 0xFFFFFFFF) ^^^ 0xFFFFFFFF

/-- The filesystem as observed for one side of a file comparison.
`metaLen` is the byte length recorded by the Scanner (the `meta` argument of
`files_are_same`, which drives the staging); `realMeta` is the result of the
re-check `fs::metadata(path)` at comparison time (`none` models an I/O error,
and `path.exists()` is `realMeta.isSome`); `content` is the result of opening
and reading the file (`none` models an I/O error while opening or reading, a
single short-capped read returning the whole stream otherwise); `pathHash` is
the `DefaultHasher` value of the path used by the directory branch of
`calculate_file_crc32`. -/
structure SideFS where
  metaLen : Nat
  realMeta : Option FsMeta
  content : Option (List Nat)
  pathHash : Nat

/-- `DirectoryComparison::calculate_file_crc32`. -/
def calcCrc32 (s : SideFS) : Option Nat :=
  match s.realMeta with
  | none => none
  | some m =>
      if m.isDir then some s.pathHash
      else
        match s.content with
        | none => none
        | some bs => some (crc32 bs)

/-- `DirectoryComparison::compare_file_crc32`: left checksum first, then
right, any error propagates. -/
def compareFileCrc32 (l r : SideFS) : Option Bool :=
  match calcCrc32 l with
  | none => none
  | some lc =>
      match calcCrc32 r with
      | none => none
      | some rc => some (decide (lc = rc))

/-- `DirectoryComparison::compare_file_heads`: re-check metadata (errors
propagate, directories compare unequal), then read at most `k` bytes from each
side and compare counts and bytes. -/
def compareFileHeads (l r : SideFS) (k : Nat) : Option Bool :=
  match l.realMeta with
  | none => none
  | some lm =>
      match r.realMeta with
      | none => none
      | some rm =>
          if lm.isDir || rm.isDir then some false
          else
            match l.content with
            | none => none
            | some lc =>
                match r.content with
                | none => none
                | some rc =>
                    let lb := lc.take k
                    let rb := rc.take k
                    if lb.length ≠ rb.length then some false
                    else some (decide (lb = rb))

/-- `DirectoryComparison::files_are_same`: the staged equality decision.
`none` models a returned `Err`. -/
def filesAreSame (l r : SideFS) : Option Bool :=
  if (l.realMeta.map FsMeta.isDir).getD false ∨ (r.realMeta.map FsMeta.isDir).getD false
    then some false
  else if ¬ l.realMeta.isSome ∨ ¬ r.realMeta.isSome then some false
  else if l.metaLen ≠ r.metaLen then some false
  else if l.metaLen = 0 then some true
  else if l.metaLen < 4096 then
    match l.content with
    | none => none
    | some lc =>
        match r.content with
        | none => none
        | some rc => some (decide (lc = rc))
  else if l.metaLen < 1024 * 1024 then compareFileCrc32 l r
  else compareFileHeads l r 4096

theorem foldlM_option_none {α β : Type} (f : β → α → Option β) :
    ∀ (l : List α) (b : β) (a : α), a ∈ l → (∀ b', f b' a = none) →
      l.foldlM f b = none := by
  intro l
  induction l with
  | nil => intro b a ha; exact absurd ha (List.not_mem_nil a)
  | cons x xs ih =>
      intro b a ha hnone
      rw [List.foldlM_cons]
      rcases List.mem_cons.mp ha with h | h
      · subst h
        rw [hnone b]
        rfl
      · cases hfb : f b x with
        | none => rfl
        | some b' => simpa [hfb] using ih b' a h hnone

theorem processPath_oracle_none (lookL lookR : RPath → Option FsMeta)
    (oracle : RPath → Option Bool) (p : RPath) (plm prm : FsMeta)
    (hp : p ≠ []) (hlook : lookL p = some plm) (hdir : plm.isDir = false)
    (hrook : lookR p = some prm) (horacle : oracle p = none) :
    ∀ acc, processPath lookL lookR oracle acc p = none := by
  intro acc
  unfold processPath declStatus? declDir
  simp [hp, hlook, hrook, hdir, horacle]

/-- **C2.** For two existing non-directory files, `files_are_same` decides
equality in stages driven by the scanned byte length: different lengths are
unequal; length 0 is equal; length under 4096 compares the full contents
byte for byte; length under 1 MiB compares the CRC-32 checksums of both
streams; length at least 1 MiB compares only the first 4096 bytes of each —
so two large files that agree on their first 4096 bytes but differ afterwards
are reported the same. -/
theorem files_are_same_staged
    (l r : SideFS) (lm rm : FsMeta)
    (hl : l.realMeta = some lm) (hr : r.realMeta = some rm)
    (hld : lm.isDir = false) (hrd : rm.isDir = false) :
    (l.metaLen ≠ r.metaLen → filesAreSame l r = some false) ∧
    (l.metaLen = r.metaLen → l.metaLen = 0 → filesAreSame l r = some true) ∧
    (∀ lc rc, l.content = some lc → r.content = some rc →
      l.metaLen = r.metaLen → 0 < l.metaLen → l.metaLen < 4096 →
      filesAreSame l r = some (decide (lc = rc))) ∧
    (∀ lc rc, l.content = some lc → r.content = some rc →
      l.metaLen = r.metaLen → 4096 ≤ l.metaLen → l.metaLen < 1024 * 1024 →
      filesAreSame l r = some (decide (crc32 lc = crc32 rc))) ∧
    (∀ lc rc, l.content = some lc → r.content = some rc →
      l.metaLen = r.metaLen → 1024 * 1024 ≤ l.metaLen →
      filesAreSame l r = some (decide (lc.take 4096 = rc.take 4096))) ∧
    (∀ lc rc, l.content = some lc → r.content = some rc →
      l.metaLen = r.metaLen → 1024 * 1024 ≤ l.metaLen →
      lc.take 4096 = rc.take 4096 → lc ≠ rc →
      filesAreSame l r = some true) := by
  have hexists : l.realMeta.isSome ∧ r.realMeta.isSome := by
    rw [hl, hr]; exact ⟨rfl, rfl⟩
  refine ⟨?_, ?_, ?_, ?_, ?_, ?_⟩
  · intro hne
    unfold filesAreSame
    simp [hl, hr, hld, hrd, hne]
  · intro hlen hz
    have hzr : r.metaLen = 0 := by omega
    unfold filesAreSame
    simp [hl, hr, hld, hrd, hlen, hz, hzr]
  · intro lc rc hlc hrc hlen hpos hlt
    have hnzr : ¬ r.metaLen = 0 := by omega
    have hltr : r.metaLen < 4096 := by omega
    unfold filesAreSame
    simp [hl, hr, hld, hrd, hlen, hlc, hrc, hnzr, hltr]
  · intro lc rc hlc hrc hlen hge hlt
    have hnzr : ¬ r.metaLen = 0 := by omega
    have hn4r : ¬ r.metaLen < 4096 := by omega
    have hltr : r.metaLen < 1024 * 1024 := by omega
    unfold filesAreSame compareFileCrc32 calcCrc32
    simp [hl, hr, hld, hrd, hlen, hlc, hrc, hnzr, hn4r, hltr]
  · intro lc rc hlc hrc hlen hge
    have hnzr : ¬ r.metaLen = 0 := by omega
    have hn4r : ¬ r.metaLen < 4096 := by omega
    have hnmr : ¬ r.metaLen < 1024 * 1024 := by omega
    unfold filesAreSame compareFileHeads
    by_cases heq : lc.take 4096 = rc.take 4096
    · have hlens : (lc.take 4096).length = (rc.take 4096).length := by rw [heq]
      simp [hl, hr, hld, hrd, hlen, hlc, hrc, hnzr, hn4r, hnmr, hlens, heq]
    · by_cases hlens : (lc.take 4096).length = (rc.take 4096).length
      · simp [hl, hr, hld, hrd, hlen, hlc, hrc, hnzr, hn4r, hnmr, hlens, heq]
      · simp [hl, hr, hld, hrd, hlen, hlc, hrc, hnzr, hn4r, hnmr, hlens, heq]
  · intro lc rc hlc hrc hlen hge heq hne
    have hnzr : ¬ r.metaLen = 0 := by omega
    have hn4r : ¬ r.metaLen < 4096 := by omega
    have hnmr : ¬ r.metaLen < 1024 * 1024 := by omega
    unfold filesAreSame compareFileHeads
    have hlens : (lc.take 4096).length = (rc.take 4096).length := by rw [heq]
    simp [hl, hr, hld, hrd, hlen, hlc, hrc, hnzr, hn4r, hnmr, hlens, heq]

/-- Witness for C2, realising the documented approximation: two 2,000,000-byte
files that agree on their first 4096 bytes but differ at byte 4097 are
classified `Same`. -/
theorem files_are_same_staged_witness :
    filesAreSame
      ⟨2000000, some ⟨false, 2000000, none⟩, some (List.replicate 4096 0 ++ [1]), 0⟩
      ⟨2000000, some ⟨false, 2000000, none⟩, some (List.replicate 4096 0 ++ [2]), 0⟩
      = some true := by
  have h := files_are_same_staged
    ⟨2000000, some ⟨false, 2000000, none⟩, some (List.replicate 4096 0 ++ [1]), 0⟩
    ⟨2000000, some ⟨false, 2000000, none⟩, some (List.replicate 4096 0 ++ [2]), 0⟩
    ⟨false, 2000000, none⟩ ⟨false, 2000000, none⟩ rfl rfl rfl rfl
  refine h.2.2.2.2.2 _ _ rfl rfl rfl (by norm_num) ?_ ?_
  · have h1 : (4096 : Nat) ≤ (List.replicate 4096 (0 : Nat)).length := by
      rw [List.length_replicate]
    rw [List.take_append_of_le_length h1, List.take_append_of_le_length h1]
  · intro hcontra
    have h2 := List.append_inj_right hcontra rfl
    exact absurd h2 (by decide)

/-- **C9.** Once the staging reaches a content read (both files exist, neither
is a directory, equal nonzero scanned lengths), an I/O failure reading either
side makes `files_are_same` return an error instead of a classification; and
such an oracle error aborts the enclosing tree comparison, which returns no
trees at all. -/
theorem read_error_aborts
    (l r : SideFS) (lm rm : FsMeta)
    (hl : l.realMeta = some lm) (hr : r.realMeta = some rm)
    (hld : lm.isDir = false) (hrd : rm.isDir = false)
    (hlen : l.metaLen = r.metaLen) (hpos : 0 < l.metaLen)
    (herr : l.content = none ∨ r.content = none) :
    filesAreSame l r = none ∧
    (∀ (lname rname : String) (lookL lookR : RPath → Option FsMeta)
        (oracle : RPath → Option Bool) (paths : List RPath) (p : RPath)
        (plm prm : FsMeta), p ∈ paths → p ≠ [] →
        lookL p = some plm → plm.isDir = false → lookR p = some prm →
        oracle p = none →
        compareTreesPure lname rname lookL lookR oracle paths = none) := by
  constructor
  · unfold filesAreSame compareFileCrc32 calcCrc32 compareFileHeads
    have hnzr : ¬ r.metaLen = 0 := by omega
    cases hlc : l.content with
    | none =>
        by_cases h4 : r.metaLen < 4096
        · simp [hl, hr, hld, hrd, hlen, hnzr, h4, hlc]
        · by_cases hm : r.metaLen < 1024 * 1024 <;>
            simp [hl, hr, hld, hrd, hlen, hnzr, h4, hm, hlc]
    | some lc =>
        have hrcn : r.content = none := by
          rcases herr with h | h
          · rw [hlc] at h
            exact absurd h (by simp)
          · exact h
        by_cases h4 : r.metaLen < 4096
        · simp [hl, hr, hld, hrd, hlen, hnzr, h4, hlc, hrcn]
        · by_cases hm : r.metaLen < 1024 * 1024 <;>
            simp [hl, hr, hld, hrd, hlen, hnzr, h4, hm, hlc, hrcn]
  · intro lname rname lookL lookR oracle paths p plm prm hmem hp hlook hdir hrook horacle
    unfold compareTreesPure
    rw [foldlM_option_none _ paths _ p hmem
      (processPath_oracle_none lookL lookR oracle p plm prm hp hlook hdir hrook horacle)]
    rfl

/-- Witness for C9: scanned length 10 on both sides, the left read fails. -/
theorem read_error_aborts_witness :
    filesAreSame ⟨10, some ⟨false, 10, none⟩, none, 0⟩
      ⟨10, some ⟨false, 10, none⟩, some [1], 0⟩ = none ∧
    compareTreesPure "L" "R" (fun _ => some ⟨false, 10, none⟩)
      (fun _ => some ⟨false, 10, none⟩) (fun _ => none) [["f"]] = none := by
  have h := read_error_aborts ⟨10, some ⟨false, 10, none⟩, none, 0⟩
    ⟨10, some ⟨false, 10, none⟩, some [1], 0⟩ ⟨false, 10, none⟩ ⟨false, 10, none⟩
    rfl rfl rfl rfl rfl (by norm_num) (Or.inl rfl)
  exact ⟨h.1, h.2 "L" "R" _ _ _ [["f"]] ["f"] ⟨false, 10, none⟩ ⟨false, 10, none⟩
    (List.mem_singleton.mpr rfl) (by simp) rfl rfl rfl rfl⟩

/-! ### Status propagation (C3) -/

theorem any_status_iff (cs : List FileNode) (x : FStatus) :
    ((cs.map FileNode.status).any (fun s => decide (s = x)) = true) ↔
      ∃ c ∈ cs, c.status = x := by
  simp [List.any_eq_true]

theorem updForest_map (cs : List FileNode) :
    updForest cs = cs.map updateFolderStatus := by
  induction cs with
  | nil => rw [updForest]; rfl
  | cons c cs ih => rw [updForest, ih]; rfl

theorem updateFolderStatus_dir (nm : String) (p : RPath) (st : FStatus)
    (cs : List FileNode) (e : Bool) (sz md : Option Nat) :
    updateFolderStatus (.mk nm p true st cs e sz md) =
      .mk nm p true (foldStatus st ((updForest cs).map FileNode.status))
        (updForest cs) e sz md := by
  rw [updateFolderStatus]
  simp

theorem foldStatus_nil (st : FStatus) : foldStatus st [] = st := by
  rw [foldStatus]
  simp

theorem foldStatus_eq_different (st : FStatus) (sts : List FStatus) (hne : sts ≠ [])
    (h : sts.any (fun s => decide (s = FStatus.different)) = true ∨
      (sts.any (fun s => decide (s = FStatus.leftOnly)) = true ∧
        sts.any (fun s => decide (s = FStatus.rightOnly)) = true) ∨
      (sts.any (fun s => decide (s = FStatus.leftOnly)) = true ∧
        sts.any (fun s => decide (s = FStatus.same)) = true) ∨
      (sts.any (fun s => decide (s = FStatus.rightOnly)) = true ∧
        sts.any (fun s => decide (s = FStatus.same)) = true)) :
    foldStatus st sts = FStatus.different := by
  unfold foldStatus
  rw [if_neg hne]
  by_cases hD : sts.any (fun s => decide (s = FStatus.different)) = true
  · rw [if_pos hD]
  · rw [if_neg hD]
    rcases h with h | ⟨h1, h2⟩ | ⟨h1, h2⟩ | ⟨h1, h2⟩
    · exact absurd h hD
    · rw [if_pos (by simp [h1, h2])]
    · by_cases hLR : (sts.any (fun s => decide (s = FStatus.leftOnly)) &&
          sts.any (fun s => decide (s = FStatus.rightOnly))) = true
      · rw [if_pos hLR]
      · rw [if_neg hLR, if_pos (by simp [h1, h2])]
    · by_cases hLR : (sts.any (fun s => decide (s = FStatus.leftOnly)) &&
          sts.any (fun s => decide (s = FStatus.rightOnly))) = true
      · rw [if_pos hLR]
      · by_cases hLS : (sts.any (fun s => decide (s = FStatus.leftOnly)) &&
            sts.any (fun s => decide (s = FStatus.same))) = true
        · rw [if_neg hLR, if_pos hLS]
        · rw [if_neg hLR, if_neg hLS, if_pos (by simp [h1, h2])]

theorem foldStatus_eq_leftOnly (st : FStatus) (sts : List FStatus) (hne : sts ≠ [])
    (hD : sts.any (fun s => decide (s = FStatus.different)) = false)
    (hR : sts.any (fun s => decide (s = FStatus.rightOnly)) = false)
    (hS : sts.any (fun s => decide (s = FStatus.same)) = false)
    (hL : sts.any (fun s => decide (s = FStatus.leftOnly)) = true) :
    foldStatus st sts = FStatus.leftOnly := by
  unfold foldStatus
  rw [if_neg hne, if_neg (by simp [hD]), if_neg (by simp [hR]),
    if_neg (by simp [hS]), if_neg (by simp [hR]), if_pos hL]

theorem foldStatus_eq_rightOnly (st : FStatus) (sts : List FStatus) (hne : sts ≠ [])
    (hD : sts.any (fun s => decide (s = FStatus.different)) = false)
    (hL : sts.any (fun s => decide (s = FStatus.leftOnly)) = false)
    (hS : sts.any (fun s => decide (s = FStatus.same)) = false)
    (hR : sts.any (fun s => decide (s = FStatus.rightOnly)) = true) :
    foldStatus st sts = FStatus.rightOnly := by
  unfold foldStatus
  rw [if_neg hne, if_neg (by simp [hD]), if_neg (by simp [hL]),
    if_neg (by simp [hL]), if_neg (by simp [hS]), if_neg (by simp [hL]), if_pos hR]

theorem foldStatus_eq_same (st : FStatus) (sts : List FStatus) (hne : sts ≠ [])
    (hD : sts.any (fun s => decide (s = FStatus.different)) = false)
    (hL : sts.any (fun s => decide (s = FStatus.leftOnly)) = false)
    (hR : sts.any (fun s => decide (s = FStatus.rightOnly)) = false) :
    foldStatus st sts = FStatus.same := by
  unfold foldStatus
  rw [if_neg hne, if_neg (by simp [hD]), if_neg (by simp [hL]),
    if_neg (by simp [hL]), if_neg (by simp [hR]), if_neg (by simp [hL]),
    if_neg (by simp [hR])]

/-- **C3.** After propagation, a directory's status is a function of its
immediate children's already-resolved statuses, computed in one bottom-up
pass: the result's children are the recursively updated children; with no
children the status is unchanged; any `Different` child or a mix of
{LeftOnly, RightOnly}, {LeftOnly, Same} or {RightOnly, Same} makes it
`Different`; otherwise only-`LeftOnly` gives `LeftOnly`, only-`RightOnly`
gives `RightOnly`, and anything else gives `Same`. -/
theorem update_folder_status_from_children (n : FileNode) (hd : n.isDir = true) :
    ((updateFolderStatus n).children = n.children.map updateFolderStatus) ∧
    (n.children = [] → (updateFolderStatus n).status = n.status) ∧
    (∀ cs', cs' = n.children.map updateFolderStatus → cs' ≠ [] →
      (((∃ c ∈ cs', c.status = FStatus.different) ∨
        ((∃ c ∈ cs', c.status = FStatus.leftOnly) ∧
          (∃ c ∈ cs', c.status = FStatus.rightOnly)) ∨
        ((∃ c ∈ cs', c.status = FStatus.leftOnly) ∧
          (∃ c ∈ cs', c.status = FStatus.same)) ∨
        ((∃ c ∈ cs', c.status = FStatus.rightOnly) ∧
          (∃ c ∈ cs', c.status = FStatus.same))) →
        (updateFolderStatus n).status = FStatus.different) ∧
      ((¬ ∃ c ∈ cs', c.status = FStatus.different) →
        (¬ ∃ c ∈ cs', c.status = FStatus.rightOnly) →
        (¬ ∃ c ∈ cs', c.status = FStatus.same) →
        (∃ c ∈ cs', c.status = FStatus.leftOnly) →
        (updateFolderStatus n).status = FStatus.leftOnly) ∧
      ((¬ ∃ c ∈ cs', c.status = FStatus.different) →
        (¬ ∃ c ∈ cs', c.status = FStatus.leftOnly) →
        (¬ ∃ c ∈ cs', c.status = FStatus.same) →
        (∃ c ∈ cs', c.status = FStatus.rightOnly) →
        (updateFolderStatus n).status = FStatus.rightOnly) ∧
      ((¬ ∃ c ∈ cs', c.status = FStatus.different) →
        (¬ ∃ c ∈ cs', c.status = FStatus.leftOnly) →
        (¬ ∃ c ∈ cs', c.status = FStatus.rightOnly) →
        (updateFolderStatus n).status = FStatus.same)) := by
  obtain ⟨nm, p, d, st, cs, e, sz, md⟩ := n
  simp only [FileNode.isDir_mk] at hd
  subst hd
  rw [updateFolderStatus_dir]
  simp only [FileNode.children_mk, FileNode.status_mk, updForest_map]
  refine ⟨by trivial, ?_, ?_⟩
  · intro hcs
    subst hcs
    simp [foldStatus_nil]
  · intro cs' hcs' hne
    subst hcs'
    have hmapne : (cs.map updateFolderStatus).map FileNode.status ≠ [] := by
      simpa using hne
    have cvt : ∀ (x : FStatus), ¬ (∃ c ∈ cs.map updateFolderStatus, c.status = x) →
        ((cs.map updateFolderStatus).map FileNode.status).any
          (fun s => decide (s = x)) = false := by
      intro x hx
      rw [← Bool.not_eq_true, any_status_iff]
      exact hx
    refine ⟨?_, ?_, ?_, ?_⟩
    · intro h
      refine foldStatus_eq_different st _ hmapne ?_
      rcases h with h | ⟨h1, h2⟩ | ⟨h1, h2⟩ | ⟨h1, h2⟩
      · exact Or.inl ((any_status_iff _ _).mpr h)
      · exact Or.inr (Or.inl ⟨(any_status_iff _ _).mpr h1, (any_status_iff _ _).mpr h2⟩)
      · exact Or.inr (Or.inr (Or.inl
          ⟨(any_status_iff _ _).mpr h1, (any_status_iff _ _).mpr h2⟩))
      · exact Or.inr (Or.inr (Or.inr
          ⟨(any_status_iff _ _).mpr h1, (any_status_iff _ _).mpr h2⟩))
    · intro hD hR hS hL
      exact foldStatus_eq_leftOnly st _ hmapne (cvt _ hD) (cvt _ hR) (cvt _ hS)
        ((any_status_iff _ _).mpr hL)
    · intro hD hL hS hR
      exact foldStatus_eq_rightOnly st _ hmapne (cvt _ hD) (cvt _ hL) (cvt _ hS)
        ((any_status_iff _ _).mpr hR)
    · intro hD hL hR
      exact foldStatus_eq_same st _ hmapne (cvt _ hD) (cvt _ hL) (cvt _ hR)

/-- Witness for C3: a directory with one `LeftOnly` and one `RightOnly` child
propagates to `Different`. -/
theorem update_folder_status_from_children_witness :
    (updateFolderStatus (FileNode.mk "d" ["d"] true FStatus.same
      [FileNode.new "a" ["d", "a"] false FStatus.leftOnly,
       FileNode.new "b" ["d", "b"] false FStatus.rightOnly] false none none)).status
      = FStatus.different := by
  have h := update_folder_status_from_children
    (FileNode.mk "d" ["d"] true FStatus.same
      [FileNode.new "a" ["d", "a"] false FStatus.leftOnly,
       FileNode.new "b" ["d", "b"] false FStatus.rightOnly] false none none) rfl
  refine (h.2.2 _ rfl (by simp)).1 (Or.inr (Or.inl ⟨?_, ?_⟩))
  · refine ⟨updateFolderStatus (FileNode.new "a" ["d", "a"] false FStatus.leftOnly),
      by simp, ?_⟩
    rw [FileNode.new, updateFolderStatus]
    rfl
  · refine ⟨updateFolderStatus (FileNode.new "b" ["d", "b"] false FStatus.rightOnly),
      by simp, ?_⟩
    rw [FileNode.new, updateFolderStatus]
    rfl

/-! ### The interactive application state (src/app.rs) -/

/-- `FilterMode` from src/app.rs. -/
inductive FilterMode where
  | all
  | different
  | differentNotOrphans
deriving DecidableEq, Repr

/-- One element of the flattened row lists `left_items` / `right_items`:
`(display_name, status, path, is_dir, size, modified)`. -/
structure Item where
  display : String
  status : FStatus
  path : RPath
  isDir : Bool
  size : Option Nat
  modified : Option Nat
deriving DecidableEq, Repr

def repeatStr (s : String) : Nat → String
  | 0 => ""
  | k + 1 => s ++ repeatStr s k

/-- The icon chosen by `flatten_tree_with_filter`. -/
def rowIcon (n : FileNode) : String :=
  if n.name = "" then ""
  else if n.isDir then (if n.expanded then "📂" else "📁") else "📄"

/-- The display name built by `flatten_tree_with_filter` at a given depth. -/
def rowDisplay (depth : Nat) (n : FileNode) : String :=
  let indent := repeatStr "  " (depth - 1)
  if n.name = "" then indent
  else if rowIcon n = "" then indent ++ n.name
  else indent ++ rowIcon n ++ " " ++ n.name

/-- The filter predicate of `flatten_tree_with_filter`. -/
def shouldInclude (f : FilterMode) (st : FStatus) : Bool :=
  match f with
  | .all => true
  | .different =>
      decide (st = .different) || decide (st = .leftOnly) || decide (st = .rightOnly)
  | .differentNotOrphans => decide (st = .different)

mutual

/-- `App::flatten_tree_with_filter`. -/
def flattenTF (f : FilterMode) : Nat → FileNode → List Item
  | depth, .mk nm p d st cs e sz md =>
      if depth = 0 then
        if d && e then flattenForest f 1 cs else []
      else
        (if shouldInclude f st
          then [⟨rowDisplay depth (.mk nm p d st cs e sz md), st, p, d, sz, md⟩]
          else []) ++
        (if d && e then flattenForest f (depth + 1) cs else [])

def flattenForest (f : FilterMode) : Nat → List FileNode → List Item
  | _, [] => []
  | depth, c :: cs => flattenTF f depth c ++ flattenForest f depth cs

end

/-- `DirectoryComparison` as owned by `App`: both trees plus both root paths
(the absolute roots are opaque strings here, while node paths are relative). -/
structure Comparison where
  leftTree : FileNode
  rightTree : FileNode
  leftDir : String
  rightDir : String

/-- `RefreshMessage` from src/app.rs; the estimated fraction is a rational. -/
inductive RefreshMessage where
  | progress (msg : String) (frac : Rat)
  | complete (c : Comparison)
  | error (e : String)

/-- The fields of `App` that the modelled operations read or write.
`refreshRx` is `refresh_rx.is_some()`; `spawnCount` counts the worker threads
spawned so far (one per `thread::spawn` in `start_refresh`). -/
@[ext] structure AppState where
  comparison : Comparison
  activePanel : Nat
  leftSel : Option Nat
  rightSel : Option Nat
  leftItems : List Item
  rightItems : List Item
  filterMode : FilterMode
  isRefreshing : Bool
  refreshProgress : String
  refreshPercentage : Rat
  refreshRx : Bool
  spawnCount : Nat
  savedLeftSel : Option Nat
  savedRightSel : Option Nat
  savedActivePanel : Nat
  savedExpansion : Option (FileNode × FileNode)
  savedFilter : Option FilterMode

/-- `App::update_file_lists` (scrollbar state is not modelled). -/
def updateFileLists (st : AppState) : AppState :=
  { st with
    leftItems := flattenTF st.filterMode 0 st.comparison.leftTree,
    rightItems := flattenTF st.filterMode 0 st.comparison.rightTree }

/-- `App::start_refresh`: a no-op while a refresh is in flight; otherwise set
the flag and progress text, install a fresh channel and spawn one worker. -/
def startRefresh (st : AppState) : AppState :=
  if st.isRefreshing then st
  else
    { st with
      isRefreshing := true,
      refreshProgress := "Starting refresh...",
      refreshRx := true,
      spawnCount := st.spawnCount + 1 }

mutual

/-- `App::restore_expansion_state_safe`: copy the saved expansion flag when
both nodes are directories at the same path, then recurse into current
children that have a saved counterpart with the same path and is-dir flag. -/
def restoreExp : FileNode → FileNode → FileNode
  | .mk nm p d st cs e sz md, sav =>
      let e2 := if d && sav.isDir && decide (p = sav.path) then sav.expanded else e
      .mk nm p d st (restoreForest sav.children cs) e2 sz md

def restoreForest (savCh : List FileNode) : List FileNode → List FileNode
  | [] => []
  | c :: cs =>
      (match savCh.find? (fun s =>
          decide (s.path = c.path) && decide (s.isDir = c.isDir)) with
       | some s => restoreExp c s
       | none => c) :: restoreForest savCh cs

end

/-- The selection-clamping tail of `restore_saved_state_safe`: keep a saved
index if it is still in range, else select row 0 of a non-empty list, else
leave the selection alone. -/
def restoreSelections (st : AppState) : AppState :=
  let st6 :=
    match st.savedLeftSel with
    | some ls =>
        if ls < st.leftItems.length then { st with leftSel := some ls }
        else if st.leftItems ≠ [] then { st with leftSel := some 0 }
        else st
    | none => st
  match st6.savedRightSel with
  | some rs =>
      if rs < st6.rightItems.length then { st6 with rightSel := some rs }
      else if st6.rightItems ≠ [] then { st6 with rightSel := some 0 }
      else st6
  | none => st6

/-- `App::restore_saved_state_safe` (the debug logging is I/O and not part of
the state transition). -/
def restoreSavedStateSafe (st : AppState) : AppState :=
  let st1 :=
    match st.savedFilter with
    | some f => { st with filterMode := f, savedFilter := none }
    | none => st
  let st2 := { st1 with activePanel := st1.savedActivePanel }
  let st3 :=
    match st2.savedExpansion with
    | some lr =>
        { st2 with
          comparison :=
            { st2.comparison with
              leftTree := restoreExp st2.comparison.leftTree lr.1,
              rightTree := restoreExp st2.comparison.rightTree lr.2 },
          savedExpansion := none }
    | none => st2
  let st4 :=
    { st3 with
      comparison :=
        { st3.comparison with
          leftTree := st3.comparison.leftTree.rootExpanded,
          rightTree := st3.comparison.rightTree.rootExpanded } }
  let st5 := updateFileLists st4
  let st7 := restoreSelections st5
  { st7 with
    savedLeftSel := none, savedRightSel := none,
    savedExpansion := none, savedFilter := none }

/-- The `RefreshMessage::Complete` branch of `App::check_refresh_progress`. -/
def applyComplete (st : AppState) (c : Comparison) : AppState :=
  let st1 :=
    { st with
      comparison :=
        { c with
          leftTree := c.leftTree.rootExpanded,
          rightTree := c.rightTree.rootExpanded } }
  let st2 := updateFileLists st1
  let st3 :=
    { st2 with isRefreshing := false, refreshProgress := "", refreshRx := false }
  if st3.savedExpansion.isSome then restoreSavedStateSafe st3 else st3

/-- The message loop of `check_refresh_progress`: progress messages update the
display pair, and a terminal message breaks out of the loop. -/
def processMsgs : AppState → List RefreshMessage → AppState
  | st, [] => st
  | st, .progress m f :: rest =>
      processMsgs { st with refreshProgress := m, refreshPercentage := f } rest
  | st, .complete c :: _ => applyComplete st c
  | st, .error e :: _ =>
      { st with
        refreshProgress := "Refresh failed: " ++ e ++ " (Press F5 to retry)",
        isRefreshing := false, refreshRx := false }

/-- `App::check_refresh_progress`, applied to the drained message queue. -/
def checkRefreshProgress (st : AppState) (msgs : List RefreshMessage) : AppState :=
  if st.refreshRx then processMsgs st msgs else st

/-- The active panel's flattened row list. -/
def panelItems (st : AppState) : List Item :=
  if st.activePanel = 0 then st.leftItems else st.rightItems

/-- The active panel's selection index. -/
def panelSel (st : AppState) : Option Nat :=
  if st.activePanel = 0 then st.leftSel else st.rightSel

/-- `App::get_selected_item`. -/
def getSelectedItem (st : AppState) : Option Item :=
  match panelSel st with
  | some i =>
      if h : i < (panelItems st).length then some ((panelItems st).get ⟨i, h⟩)
      else none
  | none => none

/-- `App::can_copy`. -/
def canCopy (st : AppState) : Bool :=
  match getSelectedItem st with
  | some it =>
      if it.display = "" then false
      else
        match it.status with
        | .leftOnly => decide (st.activePanel = 0)
        | .rightOnly => decide (st.activePanel = 1)
        | .different => true
        | .same => true
  | none => false

/-- `App::move_selection` (scrollbar state is not modelled). -/
def moveSelection (st : AppState) (delta : Int) : AppState :=
  let items := panelItems st
  if items = [] then st
  else
    let cur := (panelSel st).getD 0
    let newSel : Nat :=
      if delta > 0 then min (cur + delta.toNat) (items.length - 1)
      else cur - (- delta).toNat
    let st1 :=
      if st.activePanel = 0 then { st with leftSel := some newSel }
      else { st with rightSel := some newSel }
    let oppItems := if st.activePanel = 0 then st.rightItems else st.leftItems
    if oppItems = [] then st1
    else
      let syncSel := min newSel (oppItems.length - 1)
      if st.activePanel = 0 then { st1 with rightSel := some syncSel }
      else { st1 with leftSel := some syncSel }

/-- A small concrete application state used by the concrete instances below. -/
def demoItem : Item := ⟨"📄 x", .same, ["x"], false, some 1, none⟩

def demoState : AppState where
  comparison := ⟨mkRoot "L", mkRoot "R", "/l", "/r"⟩
  activePanel := 0
  leftSel := some 0
  rightSel := some 0
  leftItems := [demoItem]
  rightItems := [demoItem]
  filterMode := .all
  isRefreshing := false
  refreshProgress := ""
  refreshPercentage := 0
  refreshRx := false
  spawnCount := 0
  savedLeftSel := none
  savedRightSel := none
  savedActivePanel := 0
  savedExpansion := none
  savedFilter := none

/-! ### C7, C10, C8 -/

/-- **C7.** While the refresh-in-flight flag is set, `start_refresh` leaves the
application state completely unchanged: no worker is spawned (the spawn count
is part of the state) and no channel is replaced. -/
theorem start_refresh_noop (st : AppState) (h : st.isRefreshing = true) :
    startRefresh st = st := by
  unfold startRefresh
  rw [if_pos h]

/-- Witness for C7 at a concrete in-flight state. -/
theorem start_refresh_noop_witness :
    startRefresh { demoState with isRefreshing := true } =
      { demoState with isRefreshing := true } :=
  start_refresh_noop { demoState with isRefreshing := true } rfl

/-- **C10.** `can_copy` is false with no selected row; false on a blank
display name; for a `LeftOnly` row it is true exactly when the left panel is
active, for a `RightOnly` row exactly when the right panel is active, and for
`Same`/`Different` rows (with a non-blank name) it is always true — so a row
backed by a placeholder on the selected side is never copyable. -/
theorem can_copy_spec (st : AppState) :
    (getSelectedItem st = none → canCopy st = false) ∧
    (∀ it, getSelectedItem st = some it →
      (it.display = "" → canCopy st = false) ∧
      (it.display ≠ "" →
        (it.status = .leftOnly → (canCopy st = true ↔ st.activePanel = 0)) ∧
        (it.status = .rightOnly → (canCopy st = true ↔ st.activePanel = 1)) ∧
        (it.status = .same ∨ it.status = .different → canCopy st = true))) := by
  constructor
  · intro hnone
    unfold canCopy
    rw [hnone]
  · intro it hit
    refine ⟨?_, ?_⟩
    · intro hblank
      unfold canCopy
      rw [hit]
      simp [hblank]
    · intro hnb
      refine ⟨?_, ?_, ?_⟩
      · intro hstatus
        unfold canCopy
        rw [hit]
        simp [hnb, hstatus]
      · intro hstatus
        unfold canCopy
        rw [hit]
        simp [hnb, hstatus]
      · rintro (hstatus | hstatus) <;>
          · unfold canCopy
            rw [hit]
            simp [hnb, hstatus]

/-- Witness for C10: a selected `Same` row with a non-blank name is copyable. -/
theorem can_copy_spec_witness : canCopy demoState = true := by
  have h := can_copy_spec demoState
  exact ((h.2 demoItem rfl).2 (by decide)).2.2 (Or.inl rfl)

/-- **C8 counterexample.** The claim says the new index is `cur + delta`
clamped into `[0, length − 1]`; but for a negative delta the code only
saturates at 0 and never clamps from above, so with a stale selection index 5
on a 1-row list, moving by −1 yields index 4, not the claimed clamp 0. -/
theorem move_selection_counterexample :
    (moveSelection { demoState with leftSel := some 5, rightItems := [] } (-1)).leftSel
      = some 4 ∧
    (4 : Nat) ≠ min (max (5 - 1) 0) (([demoItem].length : Nat) - 1) := by
  constructor
  · rfl
  · decide

/-- **C8 (amended).** When the active panel's current index is in range, a
move by signed `delta` sets the active index to `cur + delta` clamped into
`[0, length − 1]`, and mirrors the result onto the inactive panel clamped to
that panel's own length (leaving the inactive selection alone when that panel
is empty).  Without the in-range premise the code saturates negative moves at
0 but does not clamp from above. -/
theorem move_selection_clamped (st : AppState) (delta : Int)
    (hne : panelItems st ≠ [])
    (hcur : (panelSel st).getD 0 < (panelItems st).length) :
    (st.activePanel = 0 →
      (moveSelection st delta).leftSel =
        some (min (max (((st.leftSel.getD 0 : Nat) : Int) + delta) 0)
          ((st.leftItems.length : Int) - 1)).toNat ∧
      (st.rightItems ≠ [] →
        (moveSelection st delta).rightSel =
          some (min (min (max (((st.leftSel.getD 0 : Nat) : Int) + delta) 0)
            ((st.leftItems.length : Int) - 1)).toNat (st.rightItems.length - 1))) ∧
      (st.rightItems = [] → (moveSelection st delta).rightSel = st.rightSel)) ∧
    (st.activePanel ≠ 0 →
      (moveSelection st delta).rightSel =
        some (min (max (((st.rightSel.getD 0 : Nat) : Int) + delta) 0)
          ((st.rightItems.length : Int) - 1)).toNat ∧
      (st.leftItems ≠ [] →
        (moveSelection st delta).leftSel =
          some (min (min (max (((st.rightSel.getD 0 : Nat) : Int) + delta) 0)
            ((st.rightItems.length : Int) - 1)).toNat (st.leftItems.length - 1))) ∧
      (st.leftItems = [] → (moveSelection st delta).leftSel = st.leftSel)) := by
  constructor
  · intro hp
    unfold moveSelection panelItems panelSel
    simp only [hp, if_pos rfl, if_true]
    unfold panelItems at hne
    unfold panelItems panelSel at hcur
    simp only [hp, if_pos rfl, if_true] at hne hcur
    rw [if_neg hne]
    have harith :
        (if delta > 0 then min (st.leftSel.getD 0 + delta.toNat) (st.leftItems.length - 1)
         else st.leftSel.getD 0 - (- delta).toNat) =
        (min (max (((st.leftSel.getD 0 : Nat) : Int) + delta) 0)
          ((st.leftItems.length : Int) - 1)).toNat := by
      by_cases hd : delta > 0
      · rw [if_pos hd]
        have hlen : 1 ≤ st.leftItems.length := by
          cases hli : st.leftItems with
          | nil => exact absurd hli hne
          | cons a l => simp
        omega
      · rw [if_neg hd]
        omega
    by_cases hopp : st.rightItems = []
    · rw [if_pos hopp]
      refine ⟨by simp [harith], fun hcon => absurd hopp hcon, fun _ => by simp⟩
    · rw [if_neg hopp]
      refine ⟨by simp [harith], fun _ => by simp [harith], fun hcon => absurd hcon hopp⟩
  · intro hp
    unfold moveSelection panelItems panelSel
    rw [if_neg hp]
    unfold panelItems at hne
    unfold panelItems panelSel at hcur
    rw [if_neg hp] at hne
    rw [if_neg hp, if_neg hp] at hcur
    simp only [if_neg hp]
    rw [if_neg hne]
    have harith :
        (if delta > 0 then min (st.rightSel.getD 0 + delta.toNat) (st.rightItems.length - 1)
         else st.rightSel.getD 0 - (- delta).toNat) =
        (min (max (((st.rightSel.getD 0 : Nat) : Int) + delta) 0)
          ((st.rightItems.length : Int) - 1)).toNat := by
      by_cases hd : delta > 0
      · rw [if_pos hd]
        have hlen : 1 ≤ st.rightItems.length := by
          cases hli : st.rightItems with
          | nil => exact absurd hli hne
          | cons a l => simp
        omega
      · rw [if_neg hd]
        omega
    by_cases hopp : st.leftItems = []
    · rw [if_pos hopp]
      refine ⟨by simp [harith], fun hcon => absurd hopp hcon, fun _ => by simp⟩
    · rw [if_neg hopp]
      refine ⟨by simp [harith], fun _ => by simp [harith], fun hcon => absurd hcon hopp⟩

/-- Witness for the amended C8, realising the spec's example: left panel at
index 2 of 10 rows, right panel with 6 rows, moving by +3 selects index 5 in
both panels. -/
theorem move_selection_clamped_witness :
    (moveSelection { demoState with
        leftItems := List.replicate 10 demoItem,
        rightItems := List.replicate 6 demoItem,
        leftSel := some 2 } 3).leftSel = some 5 ∧
    (moveSelection { demoState with
        leftItems := List.replicate 10 demoItem,
        rightItems := List.replicate 6 demoItem,
        leftSel := some 2 } 3).rightSel = some 5 := by
  have h := move_selection_clamped { demoState with
      leftItems := List.replicate 10 demoItem,
      rightItems := List.replicate 6 demoItem,
      leftSel := some 2 } 3 (by decide) (by decide)
  have h0 := h.1 rfl
  refine ⟨?_, ?_⟩
  · rw [h0.1]
    rfl
  · rw [h0.2.1 (by decide)]
    rfl

/-! ### C5: a failed refresh leaves the snapshot intact -/

@[simp] theorem processMsgs_nil (st : AppState) : processMsgs st [] = st := rfl

@[simp] theorem processMsgs_progress (st : AppState) (m : String) (f : Rat)
    (rest : List RefreshMessage) :
    processMsgs st (.progress m f :: rest) =
      processMsgs { st with refreshProgress := m, refreshPercentage := f } rest := rfl

@[simp] theorem processMsgs_complete (st : AppState) (c : Comparison)
    (rest : List RefreshMessage) :
    processMsgs st (.complete c :: rest) = applyComplete st c := rfl

@[simp] theorem processMsgs_error (st : AppState) (e : String)
    (rest : List RefreshMessage) :
    processMsgs st (.error e :: rest) =
      { st with
        refreshProgress := "Refresh failed: " ++ e ++ " (Press F5 to retry)",
        isRefreshing := false, refreshRx := false } := rfl

theorem processMsgs_progress_frame :
    ∀ (ps : List RefreshMessage),
      (∀ m ∈ ps, ∃ s f, m = RefreshMessage.progress s f) →
      ∀ (e : String) (st : AppState), ∃ pr pc,
        processMsgs st (ps ++ [.error e]) =
          { st with
            refreshProgress := pr, refreshPercentage := pc,
            isRefreshing := false, refreshRx := false } := by
  intro ps
  induction ps with
  | nil =>
      intro _ e st
      exact ⟨"Refresh failed: " ++ e ++ " (Press F5 to retry)", st.refreshPercentage, rfl⟩
  | cons m rest ih =>
      intro hp e st
      obtain ⟨s, f, hm⟩ := hp m (List.mem_cons_self m rest)
      subst hm
      rw [List.cons_append, processMsgs_progress]
      obtain ⟨pr, pc, heq⟩ :=
        ih (fun m' hm' => hp m' (List.mem_cons_of_mem _ hm')) e
          { st with refreshProgress := s, refreshPercentage := f }
      exact ⟨pr, pc, heq⟩

/-- **C5 counterexample.** The claim allows only the refresh-progress *text*
and the refreshing *flag* to change across a failed refresh; but the progress
*fraction* is separate state, is updated by every progress message and is not
reset by the error branch, so it also changes. -/
theorem refresh_error_changes_percentage_counterexample :
    demoState.refreshPercentage = 0 ∧
    (checkRefreshProgress (startRefresh demoState)
        [.progress "Comparing... 1/2" (1/2), .error "boom"]).refreshPercentage = 1/2 ∧
    ((1 : Rat)/2 ≠ 0) := by
  refine ⟨rfl, rfl, by norm_num⟩

/-- **C5 (amended).** A refresh that ends with an `Error` terminal message
leaves the prior `Comparison` snapshot, both flattened row lists, both panel
selections, the active panel, the filter mode and all saved reconciliation
state exactly as they were before the refresh started; only the
refresh-progress message and fraction, the refresh bookkeeping (in-flight
flag and channel, with the flag back to `false` afterwards) and the worker
spawn count change, and no partial tree is ever installed. -/
theorem refresh_error_preserves_snapshot (st : AppState) (ps : List RefreshMessage)
    (e : String) (hp : ∀ m ∈ ps, ∃ s f, m = RefreshMessage.progress s f)
    (hidle : st.isRefreshing = false) :
    (checkRefreshProgress (startRefresh st) (ps ++ [.error e])).comparison
        = st.comparison ∧
    (checkRefreshProgress (startRefresh st) (ps ++ [.error e])).leftItems
        = st.leftItems ∧
    (checkRefreshProgress (startRefresh st) (ps ++ [.error e])).rightItems
        = st.rightItems ∧
    (checkRefreshProgress (startRefresh st) (ps ++ [.error e])).leftSel = st.leftSel ∧
    (checkRefreshProgress (startRefresh st) (ps ++ [.error e])).rightSel = st.rightSel ∧
    (checkRefreshProgress (startRefresh st) (ps ++ [.error e])).activePanel
        = st.activePanel ∧
    (checkRefreshProgress (startRefresh st) (ps ++ [.error e])).filterMode
        = st.filterMode ∧
    (checkRefreshProgress (startRefresh st) (ps ++ [.error e])).savedExpansion
        = st.savedExpansion ∧
    (checkRefreshProgress (startRefresh st) (ps ++ [.error e])).isRefreshing = false ∧
    (∃ pr pc,
      checkRefreshProgress (startRefresh st) (ps ++ [.error e]) =
        { st with
          refreshProgress := pr, refreshPercentage := pc,
          isRefreshing := false, refreshRx := false,
          spawnCount := st.spawnCount + 1 }) := by
  have hsr : startRefresh st =
      { st with
        isRefreshing := true, refreshProgress := "Starting refresh...",
        refreshRx := true, spawnCount := st.spawnCount + 1 } := by
    unfold startRefresh
    rw [if_neg (by simp [hidle])]
  obtain ⟨pr, pc, heq⟩ := processMsgs_progress_frame ps hp e (startRefresh st)
  have hcheck : checkRefreshProgress (startRefresh st) (ps ++ [.error e]) =
      processMsgs (startRefresh st) (ps ++ [.error e]) := by
    unfold checkRefreshProgress
    rw [hsr]
    rfl
  rw [hcheck, heq, hsr]
  exact ⟨rfl, rfl, rfl, rfl, rfl, rfl, rfl, rfl, rfl, pr, pc, rfl⟩

/-- Witness for the amended C5 with one progress message and an error. -/
theorem refresh_error_preserves_snapshot_witness :
    (checkRefreshProgress (startRefresh demoState)
      [.progress "Scanning left directory..." (1/20), .error "boom"]).comparison
        = demoState.comparison ∧
    (checkRefreshProgress (startRefresh demoState)
      [.progress "Scanning left directory..." (1/20), .error "boom"]).leftItems
        = demoState.leftItems := by
  have h := refresh_error_preserves_snapshot demoState
    [.progress "Scanning left directory..." (1/20)] "boom"
    (by
      intro m hm
      rw [List.mem_singleton] at hm
      exact ⟨"Scanning left directory...", 1/20, hm⟩) rfl
  exact ⟨h.1, h.2.1⟩

/-! ### C4: expansion-state reconciliation after a refresh -/

mutual

/-- Erase every `expanded` flag (used to state that reconciliation changes
nothing but expansion flags). -/
def stripExp : FileNode → FileNode
  | .mk nm p d st cs _ sz md => .mk nm p d st (stripForest cs) false sz md

def stripForest : List FileNode → List FileNode
  | [] => []
  | c :: cs => stripExp c :: stripForest cs

end

theorem stripExp_mk (nm : String) (p : RPath) (d : Bool) (st : FStatus)
    (cs : List FileNode) (e : Bool) (sz md : Option Nat) :
    stripExp (.mk nm p d st cs e sz md) = .mk nm p d st (stripForest cs) false sz md := by
  rw [stripExp]

theorem stripForest_nil : stripForest [] = [] := by rw [stripForest]

theorem stripForest_cons (c : FileNode) (cs : List FileNode) :
    stripForest (c :: cs) = stripExp c :: stripForest cs := by rw [stripForest]

theorem restoreExp_mk (nm : String) (p : RPath) (d : Bool) (st : FStatus)
    (cs : List FileNode) (e : Bool) (sz md : Option Nat) (sav : FileNode) :
    restoreExp (.mk nm p d st cs e sz md) sav =
      .mk nm p d st (restoreForest sav.children cs)
        (if d && sav.isDir && decide (p = sav.path) then sav.expanded else e) sz md := by
  rw [restoreExp]

theorem restoreForest_nil (savCh : List FileNode) : restoreForest savCh [] = [] := by
  rw [restoreForest]

theorem restoreForest_cons (savCh : List FileNode) (c : FileNode) (cs : List FileNode) :
    restoreForest savCh (c :: cs) =
      (match savCh.find? (fun s =>
          decide (s.path = c.path) && decide (s.isDir = c.isDir)) with
       | some s => restoreExp c s
       | none => c) :: restoreForest savCh cs := by
  rw [restoreForest]

theorem restoreForest_eq_map (savCh : List FileNode) (cs : List FileNode) :
    restoreForest savCh cs = cs.map (fun c =>
      match savCh.find? (fun s =>
          decide (s.path = c.path) && decide (s.isDir = c.isDir)) with
      | some s => restoreExp c s
      | none => c) := by
  induction cs with
  | nil => rw [restoreForest_nil]; rfl
  | cons c cs ih => rw [restoreForest_cons, ih]; rfl

/-- Structural strong induction over `FileNode`. -/
theorem FileNode.strongInd (P : FileNode → Prop)
    (h : ∀ n : FileNode, (∀ c ∈ n.children, P c) → P n) : ∀ n, P n := by
  have aux : ∀ (k : Nat) (n : FileNode), sizeOf n ≤ k → P n := by
    intro k
    induction k with
    | zero =>
        intro n hk
        exact absurd hk (by cases n; simp [FileNode.mk.sizeOf_spec])
    | succ k ih =>
        intro n hk
        refine h n (fun c hc => ih c ?_)
        have hlt := List.sizeOf_lt_of_mem hc
        cases n with
        | mk nm p d st cs e sz md =>
            simp only [FileNode.children_mk] at hlt
            simp only [FileNode.mk.sizeOf_spec] at hk
            omega
  intro n
  exact aux (sizeOf n) n le_rfl

theorem stripExp_restoreExp (cur : FileNode) :
    ∀ sav, stripExp (restoreExp cur sav) = stripExp cur := by
  induction cur using FileNode.strongInd with
  | _ n ihn =>
      obtain ⟨nm, p, d, st, cs, e, sz, md⟩ := n
      simp only [FileNode.children_mk] at ihn
      intro sav
      rw [restoreExp_mk, stripExp_mk, stripExp_mk]
      have hforest : ∀ (cs' : List FileNode),
          (∀ c ∈ cs', ∀ s, stripExp (restoreExp c s) = stripExp c) →
          stripForest (restoreForest sav.children cs') = stripForest cs' := by
        intro cs'
        induction cs' with
        | nil => intro _; rw [restoreForest_nil]
        | cons c cs'' ih =>
            intro hmem
            rw [restoreForest_cons, stripForest_cons, stripForest_cons]
            have hc := hmem c (List.mem_cons_self c cs'')
            cases hfind : sav.children.find? (fun s =>
                decide (s.path = c.path) && decide (s.isDir = c.isDir)) with
            | none =>
                rw [ih (fun x hx s => hmem x (List.mem_cons_of_mem _ hx) s)]
            | some s =>
                rw [hc s, ih (fun x hx s' => hmem x (List.mem_cons_of_mem _ hx) s')]
      rw [hforest cs ihn]

theorem restoreSelections_comparison (st : AppState) :
    (restoreSelections st).comparison = st.comparison := by
  unfold restoreSelections
  cases st.savedLeftSel <;> cases st.savedRightSel <;>
    · simp only []
      repeat' split
      all_goals rfl

theorem restoreSavedStateSafe_trees (st : AppState) :
    (restoreSavedStateSafe st).comparison.leftTree =
      (match st.savedExpansion with
       | some lr => (restoreExp st.comparison.leftTree lr.1).rootExpanded
       | none => st.comparison.leftTree.rootExpanded) ∧
    (restoreSavedStateSafe st).comparison.rightTree =
      (match st.savedExpansion with
       | some lr => (restoreExp st.comparison.rightTree lr.2).rootExpanded
       | none => st.comparison.rightTree.rootExpanded) := by
  unfold restoreSavedStateSafe updateFileLists
  simp only [restoreSelections_comparison]
  cases hf : st.savedFilter <;> cases he : st.savedExpansion <;>
    exact ⟨rfl, rfl⟩

/-- **C4 counterexample.** The claim says the transplant happens after *every*
refresh's `Complete` message; but the pre-refresh expansion snapshot is only
captured by the copy flow (`save_current_state` inside `execute_copy`), so
after a plain F5 refresh there is nothing saved and nothing is transplanted:
an old expanded directory `a` matched by path and is-dir flag in the new tree
comes back collapsed. -/
theorem refresh_complete_no_transplant_counterexample :
    (findPath { demoState with
        comparison :=
          ⟨FileNode.mk "L" [] true .same
              [FileNode.mk "a" ["a"] true .same [] true none none] true none none,
            mkRoot "R", "/l", "/r"⟩,
        isRefreshing := true, refreshRx := true }.comparison.leftTree
        ["a"]).map FileNode.expanded = some true ∧
    ((findPath (checkRefreshProgress { demoState with
        comparison :=
          ⟨FileNode.mk "L" [] true .same
              [FileNode.mk "a" ["a"] true .same [] true none none] true none none,
            mkRoot "R", "/l", "/r"⟩,
        isRefreshing := true, refreshRx := true }
        [.complete ⟨FileNode.mk "L" [] true .same
            [FileNode.mk "a" ["a"] true .same [] false none none] true none none,
          mkRoot "R", "/l", "/r"⟩]).comparison.leftTree
        ["a"]).map FileNode.expanded) = some false := by
  constructor
  · rfl
  · rfl

/-- **C4 (amended).** When a saved expansion snapshot exists (captured before
a copy-triggered refresh), consuming a `Complete` message transplants the
saved trees' expanded flags onto the new trees by walking both in lock-step
and matching children by (relative path, is-directory): a matched directory
pair copies the saved flag, unmatched new nodes are left with their default
collapsed state, reconciliation changes nothing but expansion flags, and both
roots end up expanded regardless of saved state.  Without a saved snapshot
(a plain F5 refresh) no transplant happens and only the roots are expanded. -/
theorem refresh_complete_expansion_restore (st : AppState) (c : Comparison) :
    (st.savedExpansion = none →
      (applyComplete st c).comparison.leftTree = c.leftTree.rootExpanded ∧
      (applyComplete st c).comparison.rightTree = c.rightTree.rootExpanded) ∧
    (∀ sl sr, st.savedExpansion = some (sl, sr) →
      (applyComplete st c).comparison.leftTree =
        (restoreExp c.leftTree.rootExpanded sl).rootExpanded ∧
      (applyComplete st c).comparison.rightTree =
        (restoreExp c.rightTree.rootExpanded sr).rootExpanded) ∧
    (applyComplete st c).comparison.leftTree.expanded = true ∧
    (applyComplete st c).comparison.rightTree.expanded = true ∧
    (∀ cur sav, stripExp (restoreExp cur sav) = stripExp cur) ∧
    (∀ cur sav, (restoreExp cur sav).expanded =
      (if cur.isDir && sav.isDir && decide (cur.path = sav.path) then sav.expanded
       else cur.expanded)) ∧
    (∀ cur sav, (restoreExp cur sav).children = cur.children.map (fun ch =>
      match sav.children.find? (fun s =>
          decide (s.path = ch.path) && decide (s.isDir = ch.isDir)) with
      | some s => restoreExp ch s
      | none => ch)) := by
  have happly : ∀ (hnone : st.savedExpansion = none),
      applyComplete st c =
        { st with
          comparison :=
            { c with
              leftTree := c.leftTree.rootExpanded,
              rightTree := c.rightTree.rootExpanded },
          leftItems := flattenTF st.filterMode 0 c.leftTree.rootExpanded,
          rightItems := flattenTF st.filterMode 0 c.rightTree.rootExpanded,
          isRefreshing := false, refreshProgress := "", refreshRx := false } := by
    intro hnone
    unfold applyComplete updateFileLists
    simp only [hnone]
    rfl
  have hroot : ∀ t : FileNode, t.rootExpanded.expanded = true := by
    intro t
    cases t
    rfl
  have hcase1 : st.savedExpansion = none →
      (applyComplete st c).comparison.leftTree = c.leftTree.rootExpanded ∧
      (applyComplete st c).comparison.rightTree = c.rightTree.rootExpanded := by
    intro hnone
    rw [happly hnone]
    exact ⟨rfl, rfl⟩
  have hcase2 : ∀ sl sr, st.savedExpansion = some (sl, sr) →
      (applyComplete st c).comparison.leftTree =
        (restoreExp c.leftTree.rootExpanded sl).rootExpanded ∧
      (applyComplete st c).comparison.rightTree =
        (restoreExp c.rightTree.rootExpanded sr).rootExpanded := by
    intro sl sr hsome
    have hguard : (applyComplete st c) =
        restoreSavedStateSafe
          { st with
            comparison :=
              { c with
                leftTree := c.leftTree.rootExpanded,
                rightTree := c.rightTree.rootExpanded },
            leftItems := flattenTF st.filterMode 0 c.leftTree.rootExpanded,
            rightItems := flattenTF st.filterMode 0 c.rightTree.rootExpanded,
            isRefreshing := false, refreshProgress := "", refreshRx := false } := by
      unfold applyComplete updateFileLists
      simp only [hsome]
      rfl
    have htrees := restoreSavedStateSafe_trees
      { st with
        comparison :=
          { c with
            leftTree := c.leftTree.rootExpanded,
            rightTree := c.rightTree.rootExpanded },
        leftItems := flattenTF st.filterMode 0 c.leftTree.rootExpanded,
        rightItems := flattenTF st.filterMode 0 c.rightTree.rootExpanded,
        isRefreshing := false, refreshProgress := "", refreshRx := false }
    rw [hguard, htrees.1, htrees.2]
    simp [hsome]
  refine ⟨hcase1, hcase2, ?_, ?_, stripExp_restoreExp, ?_, ?_⟩
  · cases hsaved : st.savedExpansion with
    | none => rw [(hcase1 hsaved).1, hroot]
    | some lr => rw [(hcase2 lr.1 lr.2 (by rw [hsaved])).1, hroot]
  · cases hsaved : st.savedExpansion with
    | none => rw [(hcase1 hsaved).2, hroot]
    | some lr => rw [(hcase2 lr.1 lr.2 (by rw [hsaved])).2, hroot]
  · intro cur sav
    obtain ⟨nm, p, d, stt, cs, e, sz, md⟩ := cur
    rw [restoreExp_mk]
    rfl
  · intro cur sav
    obtain ⟨nm, p, d, stt, cs, e, sz, md⟩ := cur
    rw [restoreExp_mk]
    simp only [FileNode.children_mk]
    exact restoreForest_eq_map sav.children cs

/-- The saved (pre-refresh) left tree of the reconciliation example: `a`
expanded, `a/b` expanded, `a/c` collapsed. -/
def savedTreeW : FileNode :=
  .mk "L" [] true .same
    [.mk "a" ["a"] true .same
      [.mk "b" ["a", "b"] true .same [] true none none,
       .mk "c" ["a", "c"] true .same [] false none none] true none none]
    true none none

/-- The freshly built left tree after the refresh removed `a/b` and added
`a/d`: every non-root directory collapsed by default. -/
def newTreeW : FileNode :=
  .mk "L" [] true .same
    [.mk "a" ["a"] true .same
      [.mk "c" ["a", "c"] true .same [] false none none,
       .mk "d" ["a", "d"] true .same [] false none none] false none none]
    true none none

/-- Witness for the amended C4, realising the spec's reconciliation example:
after the transplant `a` is expanded again (copied from the saved tree),
`a/c` stays collapsed and the newly added `a/d` defaults to collapsed. -/
theorem refresh_complete_expansion_restore_witness :
    (applyComplete { demoState with savedExpansion := some (savedTreeW, savedTreeW) }
        ⟨newTreeW, newTreeW, "/l", "/r"⟩).comparison.leftTree =
      (restoreExp (⟨newTreeW, newTreeW, "/l", "/r"⟩ :
        Comparison).leftTree.rootExpanded savedTreeW).rootExpanded ∧
    ((findPath (applyComplete { demoState with
        savedExpansion := some (savedTreeW, savedTreeW) }
        ⟨newTreeW, newTreeW, "/l", "/r"⟩).comparison.leftTree ["a"]).map
          FileNode.expanded = some true) ∧
    ((findPath (applyComplete { demoState with
        savedExpansion := some (savedTreeW, savedTreeW) }
        ⟨newTreeW, newTreeW, "/l", "/r"⟩).comparison.leftTree ["a", "c"]).map
          FileNode.expanded = some false) ∧
    ((findPath (applyComplete { demoState with
        savedExpansion := some (savedTreeW, savedTreeW) }
        ⟨newTreeW, newTreeW, "/l", "/r"⟩).comparison.leftTree ["a", "d"]).map
          FileNode.expanded = some false) := by
  have h := refresh_complete_expansion_restore
    { demoState with savedExpansion := some (savedTreeW, savedTreeW) }
    ⟨newTreeW, newTreeW, "/l", "/r"⟩
  refine ⟨(h.2.1 savedTreeW savedTreeW rfl).1, ?_, ?_, ?_⟩
  · rw [(h.2.1 savedTreeW savedTreeW rfl).1]
    rfl
  · rw [(h.2.1 savedTreeW savedTreeW rfl).1]
    rfl
  · rw [(h.2.1 savedTreeW savedTreeW rfl).1]
    rfl

/-! ### C6: the tree sorter -/

theorem mirror_mk (nm : String) (p : RPath) (d : Bool) (st : FStatus)
    (cs : List FileNode) (e : Bool) (sz md : Option Nat)
    (nm' : String) (p' : RPath) (d' : Bool) (st' : FStatus)
    (cs' : List FileNode) (e' : Bool) (sz' md' : Option Nat) :
    mirror (.mk nm p d st cs e sz md) (.mk nm' p' d' st' cs' e' sz' md') =
      (decide (p = p') && decide (d = d') && decide (st = st') && decide (e = e') &&
        mirrorList cs cs') := rfl

theorem mirrorList_nil : mirrorList [] [] = true := rfl

theorem mirrorList_cons (a b : FileNode) (as bs : List FileNode) :
    mirrorList (a :: as) (b :: bs) = (mirror a b && mirrorList as bs) := rfl

theorem treeNamesOk_mk (nm : String) (p : RPath) (d : Bool) (st : FStatus)
    (cs : List FileNode) (e : Bool) (sz md : Option Nat) :
    treeNamesOk (.mk nm p d st cs e sz md) =
      ((decide (nm = "") || decide (nm = lastComp p)) && forestNamesOk cs) := rfl

theorem forestNamesOk_cons (c : FileNode) (cs : List FileNode) :
    forestNamesOk (c :: cs) = (treeNamesOk c && forestNamesOk cs) := rfl

theorem sortTree_mk (nm : String) (p : RPath) (d : Bool) (st : FStatus)
    (cs : List FileNode) (e : Bool) (sz md : Option Nat) :
    sortTree (.mk nm p d st cs e sz md) =
      .mk nm p d st (sortForest (List.insertionSort nodeLe cs)) e sz md := by
  rw [sortTree]

theorem sortForest_nil : sortForest [] = [] := by rw [sortForest]

theorem sortForest_cons (c : FileNode) (cs : List FileNode) :
    sortForest (c :: cs) = sortTree c :: sortForest cs := by rw [sortForest]

theorem sortForest_eq_map (cs : List FileNode) : sortForest cs = cs.map sortTree := by
  induction cs with
  | nil => rw [sortForest_nil]; rfl
  | cons c cs ih => rw [sortForest_cons, ih]; rfl

theorem sortTree_name (n : FileNode) : (sortTree n).name = n.name := by
  cases n; rw [sortTree_mk]; rfl

theorem sortTree_path (n : FileNode) : (sortTree n).path = n.path := by
  cases n; rw [sortTree_mk]; rfl

theorem sortTree_isDir (n : FileNode) : (sortTree n).isDir = n.isDir := by
  cases n; rw [sortTree_mk]; rfl

theorem sortTree_status (n : FileNode) : (sortTree n).status = n.status := by
  cases n; rw [sortTree_mk]; rfl

theorem sortTree_expanded (n : FileNode) : (sortTree n).expanded = n.expanded := by
  cases n; rw [sortTree_mk]; rfl

theorem sortTree_size (n : FileNode) : (sortTree n).size = n.size := by
  cases n; rw [sortTree_mk]; rfl

theorem sortTree_modified (n : FileNode) : (sortTree n).modified = n.modified := by
  cases n; rw [sortTree_mk]; rfl

theorem effName_sortTree (n : FileNode) : effName (sortTree n) = effName n := by
  unfold effName
  rw [sortTree_name, sortTree_path]

theorem nodeLe_sortTree (a b : FileNode) : nodeLe (sortTree a) (sortTree b) ↔ nodeLe a b := by
  unfold nodeLe
  rw [sortTree_isDir, sortTree_isDir, effName_sortTree, effName_sortTree]

theorem nodeLe_total (a b : FileNode) : nodeLe a b ∨ nodeLe b a := by
  unfold nodeLe
  by_cases h : a.isDir = b.isDir
  · rw [if_pos h, if_pos h.symm]
    exact le_total _ _
  · rw [if_neg h, if_neg (fun hc => h hc.symm)]
    cases ha : a.isDir
    · cases hb : b.isDir
      · exact absurd (ha.trans hb.symm) h
      · exact Or.inr rfl
    · exact Or.inl rfl

theorem nodeLe_trans (a b c : FileNode) (hab : nodeLe a b) (hbc : nodeLe b c) :
    nodeLe a c := by
  unfold nodeLe at *
  by_cases h1 : a.isDir = b.isDir <;> by_cases h2 : b.isDir = c.isDir
  · rw [if_pos h1] at hab
    rw [if_pos h2] at hbc
    rw [if_pos (h1.trans h2)]
    exact le_trans hab hbc
  · rw [if_pos h1] at hab
    rw [if_neg h2] at hbc
    rw [if_neg (fun hc => h2 (h1.symm.trans hc))]
    rw [h1]
    exact hbc
  · rw [if_neg h1] at hab
    rw [if_pos h2] at hbc
    rw [if_neg (fun hc => h1 (hc.trans h2.symm))]
    exact hab
  · rw [if_neg h1] at hab
    rw [if_neg h2] at hbc
    exact absurd (hab.trans hbc.symm) h1

instance : IsTotal FileNode nodeLe := ⟨nodeLe_total⟩

instance : IsTrans FileNode nodeLe := ⟨nodeLe_trans⟩

mutual

/-- Every node's children are in the comparator's order, recursively. -/
def treeSorted : FileNode → Prop
  | .mk _ _ _ _ cs _ _ _ => List.Pairwise nodeLe cs ∧ forestSorted cs

def forestSorted : List FileNode → Prop
  | [] => True
  | c :: cs => treeSorted c ∧ forestSorted cs

end

theorem forestSorted_iff (cs : List FileNode) :
    forestSorted cs ↔ ∀ c ∈ cs, treeSorted c := by
  induction cs with
  | nil => simp [forestSorted]
  | cons c cs ih =>
      unfold forestSorted
      rw [ih]
      constructor
      · rintro ⟨h1, h2⟩ x hx
        rcases List.mem_cons.mp hx with h | h
        · exact h ▸ h1
        · exact h2 x h
      · intro h
        exact ⟨h c (List.mem_cons_self c cs),
          fun x hx => h x (List.mem_cons_of_mem _ hx)⟩

theorem sortTree_sorted : ∀ n : FileNode, treeSorted (sortTree n) := by
  intro n
  induction n using FileNode.strongInd with
  | _ n ih =>
      obtain ⟨nm, p, d, st, cs, e, sz, md⟩ := n
      simp only [FileNode.children_mk] at ih
      rw [sortTree_mk]
      unfold treeSorted
      rw [sortForest_eq_map]
      constructor
      · have hsorted : List.Pairwise nodeLe (List.insertionSort nodeLe cs) :=
          List.sorted_insertionSort nodeLe cs
        exact List.Pairwise.map sortTree
          (fun a b hab => (nodeLe_sortTree a b).mpr hab) hsorted
      · rw [forestSorted_iff]
        intro c hc
        obtain ⟨x, hx, rfl⟩ := List.mem_map.mp hc
        exact ih x ((List.mem_insertionSort nodeLe).mp hx)

/-- The forest-level Forall₂ congruence of the stable insertion sort: if a
relation `R` makes the comparator agree pointwise, sorting two `R`-aligned
lists keeps them aligned position by position. -/
theorem forall2_orderedInsert {α : Type} {R : α → α → Prop} (r : α → α → Prop)
    [DecidableRel r]
    (hcong : ∀ a a' b b', R a a' → R b b' → (r a b ↔ r a' b')) :
    ∀ {x y : α} {l l' : List α}, R x y → List.Forall₂ R l l' →
      List.Forall₂ R (List.orderedInsert r x l) (List.orderedInsert r y l') := by
  intro x y l l' hxy h
  induction h with
  | nil =>
      simpa [List.orderedInsert] using List.Forall₂.cons hxy List.Forall₂.nil
  | @cons a b as bs hab hrest ih =>
      simp only [List.orderedInsert]
      by_cases hr : r x a
      · rw [if_pos hr, if_pos ((hcong x y a b hxy hab).mp hr)]
        exact .cons hxy (.cons hab hrest)
      · rw [if_neg hr, if_neg (fun hc => hr ((hcong x y a b hxy hab).mpr hc))]
        exact .cons hab ih

theorem forall2_insertionSort {α : Type} {R : α → α → Prop} (r : α → α → Prop)
    [DecidableRel r]
    (hcong : ∀ a a' b b', R a a' → R b b' → (r a b ↔ r a' b')) :
    ∀ {l l' : List α}, List.Forall₂ R l l' →
      List.Forall₂ R (List.insertionSort r l) (List.insertionSort r l') := by
  intro l l' h
  induction h with
  | nil => exact .nil
  | @cons a b as bs hab hrest ih =>
      simp only [List.insertionSort]
      exact forall2_orderedInsert r hcong hab ih

/-- The relation used for sort alignment: mirrored subtrees whose display
names are all builder-shaped (blank or the path's last component). -/
def MirrorNamed (a b : FileNode) : Prop :=
  mirror a b = true ∧ treeNamesOk a = true ∧ treeNamesOk b = true

theorem mirror_fields {nm : String} {p : RPath} {d : Bool} {st : FStatus}
    {cs : List FileNode} {e : Bool} {sz md : Option Nat}
    {nm' : String} {p' : RPath} {d' : Bool} {st' : FStatus}
    {cs' : List FileNode} {e' : Bool} {sz' md' : Option Nat}
    (h : mirror (.mk nm p d st cs e sz md) (.mk nm' p' d' st' cs' e' sz' md') = true) :
    p = p' ∧ d = d' ∧ st = st' ∧ e = e' ∧ mirrorList cs cs' = true := by
  rw [mirror_mk] at h
  simp only [Bool.and_eq_true, decide_eq_true_eq] at h
  exact ⟨h.1.1.1.1, h.1.1.1.2, h.1.1.2, h.1.2, h.2⟩

theorem effName_eq_of_mirrorNamed {a b : FileNode} (h : MirrorNamed a b) :
    effName a = effName b ∧ a.isDir = b.isDir := by
  obtain ⟨hm, hna, hnb⟩ := h
  obtain ⟨nma, pa, da, sta, csa, ea, sza, mda⟩ := a
  obtain ⟨nmb, pb, db, stb, csb, eb, szb, mdb⟩ := b
  obtain ⟨hp, hd, _, _, _⟩ := mirror_fields hm
  rw [treeNamesOk_mk] at hna hnb
  simp only [Bool.and_eq_true, Bool.or_eq_true, decide_eq_true_eq] at hna hnb
  subst hp
  subst hd
  refine ⟨?_, rfl⟩
  unfold effName
  simp only [FileNode.name_mk, FileNode.path_mk]
  rcases hna.1 with h1 | h1 <;> rcases hnb.1 with h2 | h2 <;>
    simp [h1, h2]

theorem nodeLe_congr_mirrorNamed (a a' b b' : FileNode)
    (h1 : MirrorNamed a a') (h2 : MirrorNamed b b') :
    nodeLe a b ↔ nodeLe a' b' := by
  obtain ⟨he1, hd1⟩ := effName_eq_of_mirrorNamed h1
  obtain ⟨he2, hd2⟩ := effName_eq_of_mirrorNamed h2
  unfold nodeLe
  rw [he1, he2, hd1, hd2]

theorem mirrorList_forall2 (cs cs' : List FileNode)
    (hm : mirrorList cs cs' = true)
    (hn : forestNamesOk cs = true) (hn' : forestNamesOk cs' = true) :
    List.Forall₂ MirrorNamed cs cs' := by
  induction cs generalizing cs' with
  | nil =>
      cases cs' with
      | nil => exact .nil
      | cons b bs => exact absurd hm (by rw [mirrorList]; simp)
  | cons a as ih =>
      cases cs' with
      | nil => exact absurd hm (by rw [mirrorList]; simp)
      | cons b bs =>
          rw [mirrorList_cons] at hm
          rw [forestNamesOk_cons] at hn hn'
          simp only [Bool.and_eq_true] at hm hn hn'
          exact .cons ⟨hm.1, hn.1, hn'.1⟩ (ih bs hm.2 hn.2 hn'.2)

theorem forall2_mirrorList {cs cs' : List FileNode}
    (h : List.Forall₂ MirrorNamed cs cs') : mirrorList cs cs' = true := by
  induction h with
  | nil => rfl
  | cons hab hrest ih =>
      rw [mirrorList_cons]
      simp only [Bool.and_eq_true]
      exact ⟨hab.1, ih⟩

theorem treeNamesOk_children {n : FileNode} (h : treeNamesOk n = true) :
    forestNamesOk n.children = true := by
  obtain ⟨nm, p, d, st, cs, e, sz, md⟩ := n
  rw [treeNamesOk_mk] at h
  simp only [Bool.and_eq_true] at h
  exact h.2

theorem forall2_map_sortTree (cs0 : List FileNode)
    (ih : ∀ c ∈ cs0, ∀ r', mirror c r' = true → forestNamesOk c.children = true →
      forestNamesOk r'.children = true → mirror (sortTree c) (sortTree r') = true) :
    ∀ {xs ys : List FileNode}, (∀ x ∈ xs, x ∈ cs0) → List.Forall₂ MirrorNamed xs ys →
      mirrorList (xs.map sortTree) (ys.map sortTree) = true := by
  intro xs ys hsub h
  induction h with
  | nil => rfl
  | @cons a b as bs hab hrest ihf =>
      rw [List.map_cons, List.map_cons, mirrorList_cons]
      simp only [Bool.and_eq_true]
      obtain ⟨hm, hna, hnb⟩ := hab
      refine ⟨?_, ihf (fun x hx => hsub x (List.mem_cons_of_mem _ hx))⟩
      exact ih a (hsub a (List.mem_cons_self a as)) b hm
        (treeNamesOk_children hna) (treeNamesOk_children hnb)

theorem mirror_sortTree : ∀ l r : FileNode, mirror l r = true →
    forestNamesOk l.children = true → forestNamesOk r.children = true →
    mirror (sortTree l) (sortTree r) = true := by
  intro l
  induction l using FileNode.strongInd with
  | _ l ih =>
      intro r hm hnl hnr
      obtain ⟨nm, p, d, st, cs, e, sz, md⟩ := l
      obtain ⟨nm', p', d', st', cs', e', sz', md'⟩ := r
      simp only [FileNode.children_mk] at ih hnl hnr
      obtain ⟨hp, hd, hst, he, hcs⟩ := mirror_fields hm
      subst hp
      subst hd
      subst hst
      subst he
      rw [sortTree_mk, sortTree_mk, mirror_mk]
      have hF := mirrorList_forall2 cs cs' hcs hnl hnr
      have hFs := forall2_insertionSort nodeLe nodeLe_congr_mirrorNamed hF
      have hrest : mirrorList (sortForest (List.insertionSort nodeLe cs))
          (sortForest (List.insertionSort nodeLe cs')) = true := by
        rw [sortForest_eq_map, sortForest_eq_map]
        exact forall2_map_sortTree cs ih
          (fun x hx => (List.mem_insertionSort nodeLe).mp hx) hFs
      simp [hrest]

/-- The per-row data that must line up across panels: status, relative path
and is-directory flag (display names and metadata may differ between a real
node and its placeholder). -/
def itemKey (it : Item) : FStatus × RPath × Bool := (it.status, it.path, it.isDir)

theorem flattenTF_mk (f : FilterMode) (depth : Nat) (nm : String) (p : RPath)
    (d : Bool) (st : FStatus) (cs : List FileNode) (e : Bool) (sz md : Option Nat) :
    flattenTF f depth (.mk nm p d st cs e sz md) =
      if depth = 0 then
        if d && e then flattenForest f 1 cs else []
      else
        (if shouldInclude f st
          then [⟨rowDisplay depth (.mk nm p d st cs e sz md), st, p, d, sz, md⟩]
          else []) ++
        (if d && e then flattenForest f (depth + 1) cs else []) := rfl

theorem flattenForest_nil (f : FilterMode) (depth : Nat) :
    flattenForest f depth [] = [] := rfl

theorem flattenForest_cons (f : FilterMode) (depth : Nat) (c : FileNode)
    (cs : List FileNode) :
    flattenForest f depth (c :: cs) =
      flattenTF f depth c ++ flattenForest f depth cs := rfl

/-- Mirrored trees flatten to row lists with identical keys, position by
position — the row-for-row alignment of the two panels. -/
theorem mirror_flatten : ∀ l r : FileNode, mirror l r = true →
    ∀ (f : FilterMode) (depth : Nat),
      (flattenTF f depth l).map itemKey = (flattenTF f depth r).map itemKey := by
  intro l
  induction l using FileNode.strongInd with
  | _ l ih =>
      intro r hm f depth
      obtain ⟨nm, p, d, st, cs, e, sz, md⟩ := l
      obtain ⟨nm', p', d', st', cs', e', sz', md'⟩ := r
      simp only [FileNode.children_mk] at ih
      obtain ⟨hp, hd, hst, he, hcs⟩ := mirror_fields hm
      subst hp
      subst hd
      subst hst
      subst he
      have hforest : ∀ (xs : List FileNode), (∀ x ∈ xs, x ∈ cs) →
          ∀ (ys : List FileNode), mirrorList xs ys = true → ∀ dd : Nat,
            (flattenForest f dd xs).map itemKey =
              (flattenForest f dd ys).map itemKey := by
        intro xs
        induction xs with
        | nil =>
            intro _ ys hys dd
            cases ys with
            | nil => rfl
            | cons b bs => exact absurd hys (by simp [mirrorList])
        | cons a as ihx =>
            intro hsub ys hys dd
            cases ys with
            | nil => exact absurd hys (by simp [mirrorList])
            | cons b bs =>
                rw [mirrorList_cons] at hys
                simp only [Bool.and_eq_true] at hys
                rw [flattenForest_cons, flattenForest_cons,
                  List.map_append, List.map_append,
                  ih a (hsub a (List.mem_cons_self a as)) b hys.1 f dd,
                  ihx (fun x hx => hsub x (List.mem_cons_of_mem _ hx)) bs hys.2 dd]
      by_cases hdep : depth = 0
      · subst hdep
        rw [flattenTF_mk, flattenTF_mk, if_pos rfl, if_pos rfl]
        cases hde : (d && e) with
        | false => rw [if_neg (by simp), if_neg (by simp)]
        | true =>
            rw [if_pos rfl, if_pos rfl]
            exact hforest cs (fun x hx => hx) cs' hcs 1
      · rw [flattenTF_mk, flattenTF_mk, if_neg hdep, if_neg hdep,
          List.map_append, List.map_append]
        congr 1
        · cases hinc : shouldInclude f st with
          | false => rw [if_neg (by simp), if_neg (by simp)]
          | true =>
              rw [if_pos rfl, if_pos rfl]
              rfl
        · cases hde : (d && e) with
          | false => rw [if_neg (by simp), if_neg (by simp)]
          | true =>
              rw [if_pos rfl, if_pos rfl]
              exact hforest cs (fun x hx => hx) cs' hcs (depth + 1)

/-- **C6.** The sorter orders every node's children by the source comparator
— directories before files, then case-insensitive comparison of the display
name with the path's last component as fallback for blank names — the sorted
children are a permutation of the recursively sorted originals, and applying
the sorter to two aligned trees built over the same path union (mirrored,
with builder-shaped names) preserves the trees' alignment and hence the
row-for-row alignment of the flattened panels. -/
theorem sort_tree_spec (n l r : FileNode)
    (hm : mirror l r = true)
    (hnl : forestNamesOk l.children = true) (hnr : forestNamesOk r.children = true) :
    treeSorted (sortTree n) ∧
    (sortTree n).children.Perm (n.children.map sortTree) ∧
    (∀ a b : FileNode, a.isDir = true → b.isDir = false →
      nodeLe a b ∧ ¬ nodeLe b a) ∧
    (∀ a b : FileNode, a.isDir = b.isDir →
      (nodeLe a b ↔ (effName a).toLower ≤ (effName b).toLower)) ∧
    (∀ a : FileNode, a.name = "" → effName a = lastComp a.path) ∧
    (∀ a : FileNode, a.name ≠ "" → effName a = a.name) ∧
    mirror (sortTree l) (sortTree r) = true ∧
    (∀ (f : FilterMode) (depth : Nat),
      (flattenTF f depth (sortTree l)).map itemKey =
        (flattenTF f depth (sortTree r)).map itemKey) := by
  refine ⟨sortTree_sorted n, ?_, ?_, ?_, ?_, ?_,
    mirror_sortTree l r hm hnl hnr, ?_⟩
  · obtain ⟨nm, p, d, st, cs, e, sz, md⟩ := n
    rw [sortTree_mk]
    simp only [FileNode.children_mk]
    rw [sortForest_eq_map]
    exact (List.perm_insertionSort nodeLe cs).map sortTree
  · intro a b hda hdb
    unfold nodeLe
    rw [hda, hdb]
    refine ⟨by simp, by simp⟩
  · intro a b hd
    unfold nodeLe
    rw [if_pos hd]
  · intro a hblank
    unfold effName
    rw [if_pos hblank]
  · intro a hblank
    unfold effName
    rw [if_neg hblank]
  · intro f depth
    exact mirror_flatten _ _ (mirror_sortTree l r hm hnl hnr) f depth

/-- Witness for C6 on a small aligned pair of trees (a real file on the left,
a blank-named placeholder at the same path on the right). -/
theorem sort_tree_spec_witness :
    mirror
      (sortTree (FileNode.mk "L" [] true .leftOnly
        [FileNode.new "f" ["f"] false .leftOnly] true none none))
      (sortTree (FileNode.mk "R" [] true .leftOnly
        [FileNode.new "" ["f"] false .leftOnly] true none none)) = true := by
  have h := sort_tree_spec
    (FileNode.mk "L" [] true .leftOnly
      [FileNode.new "f" ["f"] false .leftOnly] true none none)
    (FileNode.mk "L" [] true .leftOnly
      [FileNode.new "f" ["f"] false .leftOnly] true none none)
    (FileNode.mk "R" [] true .leftOnly
      [FileNode.new "" ["f"] false .leftOnly] true none none)
    (by decide) (by decide) (by decide)
  exact h.2.2.2.2.2.2.1

/-! ### C1: structural alignment of the built trees.

The development below follows the builder: per-path insertion into both trees
(`insertGo`), the `BTreeSet` iteration order (`pathLe`), and the final sort
and status propagation.  `nodeFacts` packages every node field except the
children, which is what insertion lemmas track through the tree. -/

def nodeFacts (n : FileNode) :
    String × RPath × Bool × FStatus × Bool × Option Nat × Option Nat :=
  (n.name, n.path, n.isDir, n.status, n.expanded, n.size, n.modified)

theorem withChildren_facts (n : FileNode) (cs : List FileNode) :
    nodeFacts (n.withChildren cs) = nodeFacts n := by
  cases n
  rfl

@[simp] theorem withChildren_children (n : FileNode) (cs : List FileNode) :
    (n.withChildren cs).children = cs := by
  cases n
  rfl

@[simp] theorem withChildren_path (n : FileNode) (cs : List FileNode) :
    (n.withChildren cs).path = n.path := by
  cases n
  rfl

@[simp] theorem setStatus_path (n : FileNode) (st : FStatus) :
    (n.setStatus st).path = n.path := by
  cases n
  rfl

@[simp] theorem setStatus_children (n : FileNode) (st : FStatus) :
    (n.setStatus st).children = n.children := by
  cases n
  rfl

theorem insertGo_facts (name : String) (isDir : Bool) (status : FStatus)
    (meta : Option FsMeta) :
    ∀ (comps pre : RPath) (cur : FileNode),
      nodeFacts (insertGo name isDir status meta pre comps cur) = nodeFacts cur := by
  intro comps
  cases comps with
  | nil => intro pre cur; rfl
  | cons c rest =>
      intro pre cur
      unfold insertGo
      cases findChild? cur.children c with
      | some ch => exact withChildren_facts cur _
      | none => exact withChildren_facts cur _

theorem insertGo_path (name : String) (isDir : Bool) (status : FStatus)
    (meta : Option FsMeta) (comps pre : RPath) (cur : FileNode) :
    (insertGo name isDir status meta pre comps cur).path = cur.path := by
  have h := insertGo_facts name isDir status meta comps pre cur
  unfold nodeFacts at h
  exact congrArg (fun x => x.2.1) h

/-! #### The `BTreeSet` path order -/

theorem pathLeB_append (q t : RPath) : pathLeB q (q ++ t) = true := by
  induction q with
  | nil => rfl
  | cons a as ih =>
      show pathLeB (a :: as) (a :: (as ++ t)) = true
      unfold pathLeB
      rw [if_pos rfl]
      exact ih

theorem pathLeB_append_strict (q t : RPath) (ht : t ≠ []) :
    pathLeB (q ++ t) q = false := by
  induction q with
  | nil =>
      cases t with
      | nil => exact absurd rfl ht
      | cons a as => rfl
  | cons a as ih =>
      show pathLeB (a :: (as ++ t)) (a :: as) = false
      unfold pathLeB
      rw [if_pos rfl]
      exact ih

theorem pathLeB_total (p q : RPath) : pathLeB p q = true ∨ pathLeB q p = true := by
  induction p generalizing q with
  | nil => exact Or.inl rfl
  | cons a as ih =>
      cases q with
      | nil => exact Or.inr rfl
      | cons b bs =>
          unfold pathLeB
          by_cases hab : a = b
          · rw [if_pos hab, if_pos hab.symm]
            exact ih bs
          · rw [if_neg hab, if_neg (fun h => hab h.symm)]
            rcases lt_or_gt_of_ne hab with h | h
            · exact Or.inl (by simp [h])
            · exact Or.inr (by simp [h])

theorem pathLeB_trans (p q r : RPath) (hpq : pathLeB p q = true)
    (hqr : pathLeB q r = true) : pathLeB p r = true := by
  induction p generalizing q r with
  | nil => rfl
  | cons a as ih =>
      cases q with
      | nil => exact absurd hpq (by simp [pathLeB])
      | cons b bs =>
          cases r with
          | nil => exact absurd hqr (by simp [pathLeB])
          | cons c cs =>
              unfold pathLeB at hpq hqr ⊢
              by_cases hab : a = b <;> by_cases hbc : b = c
              · rw [if_pos hab] at hpq
                rw [if_pos hbc] at hqr
                rw [if_pos (hab.trans hbc)]
                exact ih bs cs hpq hqr
              · rw [if_pos hab] at hpq
                rw [if_neg hbc] at hqr
                rw [if_neg (fun h => hbc (hab.symm.trans h)), hab]
                exact hqr
              · rw [if_neg hab] at hpq
                rw [if_pos hbc] at hqr
                rw [if_neg (fun h => hab (h.trans hbc.symm)), ← hbc]
                exact hpq
              · rw [if_neg hab] at hpq
                rw [if_neg hbc] at hqr
                simp only [decide_eq_true_eq] at hpq hqr
                have hac : a < c := lt_trans hpq hqr
                rw [if_neg (ne_of_lt hac)]
                simp [hac]

instance : IsTotal RPath pathLe := ⟨fun p q => pathLeB_total p q⟩

instance : IsTrans RPath pathLe := ⟨fun p q r => pathLeB_trans p q r⟩

theorem pathLe_of_mem_inits {q p : RPath} (h : q ∈ p.inits) : pathLe q p := by
  obtain ⟨t, rfl⟩ := (List.mem_inits q p).mp h
  exact pathLeB_append q t

theorem not_pathLe_of_mem_inits {q p : RPath} (h : q ∈ p.inits) (hne : q ≠ p) :
    ¬ pathLe p q := by
  obtain ⟨t, rfl⟩ := (List.mem_inits q p).mp h
  cases t with
  | nil => exact absurd (List.append_nil q) (fun hq => hne hq.symm)
  | cons a as =>
      intro hc
      have := pathLeB_append_strict q (a :: as) (by simp)
      unfold pathLe at hc
      rw [this] at hc
      cases hc

/-! #### Insertion preserves alignment -/

theorem mirror_path {a b : FileNode} (h : mirror a b = true) : a.path = b.path := by
  obtain ⟨nm, p, d, st, cs, e, sz, md⟩ := a
  obtain ⟨nm', p', d', st', cs', e', sz', md'⟩ := b
  exact (mirror_fields h).1

theorem mirror_status {a b : FileNode} (h : mirror a b = true) : a.status = b.status := by
  obtain ⟨nm, p, d, st, cs, e, sz, md⟩ := a
  obtain ⟨nm', p', d', st', cs', e', sz', md'⟩ := b
  exact (mirror_fields h).2.2.1

theorem mirror_children {a b : FileNode} (h : mirror a b = true) :
    mirrorList a.children b.children = true := by
  obtain ⟨nm, p, d, st, cs, e, sz, md⟩ := a
  obtain ⟨nm', p', d', st', cs', e', sz', md'⟩ := b
  exact (mirror_fields h).2.2.2.2

theorem mirror_withChildren {a b : FileNode} (h : mirror a b = true)
    {cs cs' : List FileNode} (hcs : mirrorList cs cs' = true) :
    mirror (a.withChildren cs) (b.withChildren cs') = true := by
  obtain ⟨nm, p, d, st, csa, e, sz, md⟩ := a
  obtain ⟨nm', p', d', st', csb, e', sz', md'⟩ := b
  obtain ⟨h1, h2, h3, h4, _⟩ := mirror_fields h
  show mirror (.mk nm p d st cs e sz md) (.mk nm' p' d' st' cs' e' sz' md') = true
  rw [mirror_mk]
  simp [h1, h2, h3, h4, hcs]

theorem mirror_setStatus {a b : FileNode} (h : mirror a b = true) (st : FStatus) :
    mirror (a.setStatus st) (b.setStatus st) = true := by
  obtain ⟨nm, p, d, sta, cs, e, sz, md⟩ := a
  obtain ⟨nm', p', d', stb, cs', e', sz', md'⟩ := b
  obtain ⟨h1, h2, _, h4, h5⟩ := mirror_fields h
  show mirror (.mk nm p d st cs e sz md) (.mk nm' p' d' st cs' e' sz' md') = true
  rw [mirror_mk]
  simp [h1, h2, h4, h5]

theorem mirror_newWithMeta (nameL nameR : String) (p : RPath) (d : Bool)
    (st : FStatus) (mL mR : Option FsMeta) :
    mirror (FileNode.newWithMeta nameL p d st mL)
      (FileNode.newWithMeta nameR p d st mR) = true := by
  cases mL <;> cases mR <;>
    · unfold FileNode.newWithMeta
      rw [mirror_mk]
      simp [mirrorList_nil]

theorem mirror_new_self (nm : String) (p : RPath) (d : Bool) (st : FStatus) :
    mirror (FileNode.new nm p d st) (FileNode.new nm p d st) = true := by
  unfold FileNode.new
  rw [mirror_mk]
  simp [mirrorList_nil]

theorem mirrorList_findChild_none {cs cs' : List FileNode}
    (hm : mirrorList cs cs' = true) (c : String)
    (hf : findChild? cs c = none) : findChild? cs' c = none := by
  induction cs generalizing cs' with
  | nil =>
      cases cs' with
      | nil => rfl
      | cons b bs => exact absurd hm (by simp [mirrorList])
  | cons a as ih =>
      cases cs' with
      | nil => exact absurd hm (by simp [mirrorList])
      | cons b bs =>
          rw [mirrorList_cons] at hm
          simp only [Bool.and_eq_true] at hm
          unfold findChild? at hf ⊢
          rw [List.find?_cons] at hf ⊢
          have hpath : b.path = a.path := (mirror_path hm.1).symm
          cases hpred : decide (lastComp a.path = c) with
          | true => rw [hpred] at hf; cases hf
          | false =>
              rw [hpred] at hf
              rw [hpath, hpred]
              exact ih hm.2 hf

theorem mirrorList_findChild_some {cs cs' : List FileNode}
    (hm : mirrorList cs cs' = true) (c : String) {ch : FileNode}
    (hf : findChild? cs c = some ch) :
    ∃ ch', findChild? cs' c = some ch' ∧ mirror ch ch' = true := by
  induction cs generalizing cs' with
  | nil => exact absurd hf (by simp [findChild?])
  | cons a as ih =>
      cases cs' with
      | nil => exact absurd hm (by simp [mirrorList])
      | cons b bs =>
          rw [mirrorList_cons] at hm
          simp only [Bool.and_eq_true] at hm
          unfold findChild? at hf ⊢
          rw [List.find?_cons] at hf ⊢
          have hpath : b.path = a.path := (mirror_path hm.1).symm
          cases hpred : decide (lastComp a.path = c) with
          | true =>
              rw [hpred] at hf
              rw [hpath, hpred]
              exact ⟨b, rfl, Option.some.inj hf ▸ hm.1⟩
          | false =>
              rw [hpred] at hf
              rw [hpath, hpred]
              exact ih hm.2 hf

theorem mirrorList_replaceChild {cs cs' : List FileNode}
    (hm : mirrorList cs cs' = true) (c : String) {n n' : FileNode}
    (hn : mirror n n' = true) :
    mirrorList (replaceChild c n cs) (replaceChild c n' cs') = true := by
  induction cs generalizing cs' with
  | nil =>
      cases cs' with
      | nil => exact rfl
      | cons b bs => exact absurd hm (by simp [mirrorList])
  | cons a as ih =>
      cases cs' with
      | nil => exact absurd hm (by simp [mirrorList])
      | cons b bs =>
          rw [mirrorList_cons] at hm
          simp only [Bool.and_eq_true] at hm
          have hpath : b.path = a.path := (mirror_path hm.1).symm
          unfold replaceChild
          by_cases hk : lastComp a.path = c
          · rw [if_pos hk, if_pos (by rw [hpath]; exact hk), mirrorList_cons]
            simp [hn, hm.2]
          · rw [if_neg hk, if_neg (by rw [hpath]; exact hk), mirrorList_cons]
            simp only [Bool.and_eq_true]
            exact ⟨hm.1, ih hm.2⟩

theorem mirrorList_append_single {cs cs' : List FileNode}
    (hm : mirrorList cs cs' = true) {n n' : FileNode} (hn : mirror n n' = true) :
    mirrorList (cs ++ [n]) (cs' ++ [n']) = true := by
  induction cs generalizing cs' with
  | nil =>
      cases cs' with
      | nil => simp [mirrorList_cons, mirrorList_nil, hn]
      | cons b bs => exact absurd hm (by simp [mirrorList])
  | cons a as ih =>
      cases cs' with
      | nil => exact absurd hm (by simp [mirrorList])
      | cons b bs =>
          rw [mirrorList_cons] at hm
          simp only [Bool.and_eq_true] at hm
          rw [List.cons_append, List.cons_append, mirrorList_cons]
          simp only [Bool.and_eq_true]
          exact ⟨hm.1, ih hm.2⟩

/-- Inserting the same path with the same is-dir flag and status into two
aligned trees (with possibly different display names and metadata) keeps them
aligned. -/
theorem insertGo_mirror (d : Bool) (st : FStatus) :
    ∀ (comps pre : RPath) (nameL nameR : String) (mL mR : Option FsMeta)
      (cl cr : FileNode), mirror cl cr = true →
      mirror (insertGo nameL d st mL pre comps cl)
        (insertGo nameR d st mR pre comps cr) = true := by
  intro comps
  induction comps with
  | nil => intro pre nameL nameR mL mR cl cr h; exact h
  | cons c rest ih =>
      intro pre nameL nameR mL mR cl cr h
      unfold insertGo
      have hml : mirrorList cl.children cr.children = true := mirror_children h
      cases hf : findChild? cl.children c with
      | some ch =>
          obtain ⟨ch', hf', hch⟩ := mirrorList_findChild_some hml c hf
          rw [hf']
          refine mirror_withChildren h (mirrorList_replaceChild hml c ?_)
          by_cases hrest : rest = []
          · rw [if_pos hrest, if_pos hrest]
            exact ih (pre ++ [c]) nameL nameR mL mR _ _ (mirror_setStatus hch st)
          · rw [if_neg hrest, if_neg hrest]
            exact ih (pre ++ [c]) nameL nameR mL mR _ _ hch
      | none =>
          rw [mirrorList_findChild_none hml c hf]
          refine mirror_withChildren h (mirrorList_append_single hml ?_)
          by_cases hrest : rest = []
          · rw [if_pos hrest, if_pos hrest]
            exact ih (pre ++ [c]) nameL nameR mL mR _ _
              (mirror_newWithMeta nameL nameR (pre ++ [c]) d st mL mR)
          · rw [if_neg hrest, if_neg hrest]
            exact ih (pre ++ [c]) nameL nameR mL mR _ _
              (mirror_new_self c (pre ++ [c]) true .same)

/-! #### Insertion preserves builder-shaped names and well-formedness -/

theorem getLastD_ne_nil {l : RPath} (h : l ≠ []) (x y : String) :
    l.getLastD x = l.getLastD y := by
  cases l with
  | nil => exact absurd rfl h
  | cons b bs => rfl

theorem lastComp_cons_ne {c : String} {rest : RPath} (h : rest ≠ []) :
    lastComp (c :: rest) = lastComp rest := by
  unfold lastComp
  rw [List.getLastD_cons]
  exact getLastD_ne_nil h c ""

theorem lastComp_append_single (pre : RPath) (c : String) :
    lastComp (pre ++ [c]) = c := by
  induction pre with
  | nil => rfl
  | cons a as ih =>
      rw [List.cons_append]
      rw [lastComp_cons_ne (by simp)]
      exact ih

theorem findChild?_some_key {cs : List FileNode} {c : String} {ch : FileNode}
    (h : findChild? cs c = some ch) : lastComp ch.path = c ∧ ch ∈ cs := by
  unfold findChild? at h
  refine ⟨?_, List.mem_of_find?_eq_some h⟩
  have := List.find?_some h
  simpa using this

theorem findChild?_none_keys {cs : List FileNode} {c : String}
    (h : findChild? cs c = none) : ∀ ch ∈ cs, lastComp ch.path ≠ c := by
  intro ch hch
  have := List.find?_eq_none.mp h ch hch
  simpa using this

theorem treeNamesOk_of {n : FileNode}
    (hname : n.name = "" ∨ n.name = lastComp n.path)
    (hforest : forestNamesOk n.children = true) : treeNamesOk n = true := by
  obtain ⟨nm, p, d, st, cs, e, sz, md⟩ := n
  rw [treeNamesOk_mk]
  simp only [FileNode.name_mk, FileNode.path_mk, FileNode.children_mk] at hname hforest
  rcases hname with h | h <;> simp [h, hforest]

theorem treeNamesOk_parts {n : FileNode} (h : treeNamesOk n = true) :
    (n.name = "" ∨ n.name = lastComp n.path) ∧ forestNamesOk n.children = true := by
  obtain ⟨nm, p, d, st, cs, e, sz, md⟩ := n
  rw [treeNamesOk_mk] at h
  simp only [Bool.and_eq_true, Bool.or_eq_true, decide_eq_true_eq] at h
  exact ⟨h.1, h.2⟩

theorem forestNamesOk_iff (cs : List FileNode) :
    forestNamesOk cs = true ↔ ∀ c ∈ cs, treeNamesOk c = true := by
  induction cs with
  | nil => simp [forestNamesOk]
  | cons c cs ih =>
      rw [forestNamesOk_cons]
      simp only [Bool.and_eq_true, ih]
      constructor
      · rintro ⟨h1, h2⟩ x hx
        rcases List.mem_cons.mp hx with h | h
        · exact h ▸ h1
        · exact h2 x h
      · intro h
        exact ⟨h c (List.mem_cons_self c cs),
          fun x hx => h x (List.mem_cons_of_mem _ hx)⟩

theorem mem_replaceChild {c : String} {n x : FileNode} :
    ∀ {cs : List FileNode}, x ∈ replaceChild c n cs → x = n ∨ x ∈ cs := by
  intro cs
  induction cs with
  | nil => intro h; exact absurd h (by simp [replaceChild])
  | cons a as ih =>
      intro h
      unfold replaceChild at h
      by_cases hk : lastComp a.path = c
      · rw [if_pos hk] at h
        rcases List.mem_cons.mp h with h | h
        · exact Or.inl h
        · exact Or.inr (List.mem_cons_of_mem _ h)
      · rw [if_neg hk] at h
        rcases List.mem_cons.mp h with h | h
        · exact Or.inr (h ▸ List.mem_cons_self a as)
        · rcases ih h with h | h
          · exact Or.inl h
          · exact Or.inr (List.mem_cons_of_mem _ h)

theorem setStatus_facts_names {n : FileNode} (st : FStatus)
    (h : treeNamesOk n = true) : treeNamesOk (n.setStatus st) = true := by
  obtain ⟨nm, p, d, st0, cs, e, sz, md⟩ := n
  rw [treeNamesOk_mk] at h
  show treeNamesOk (FileNode.mk nm p d st cs e sz md) = true
  rw [treeNamesOk_mk]
  exact h

/-- Inserting a path whose display name is blank or its own last component
keeps every display name in the tree builder-shaped. -/
theorem insertGo_namesOk (d : Bool) (st : FStatus) :
    ∀ (comps pre : RPath) (name : String) (m : Option FsMeta) (cur : FileNode),
      forestNamesOk cur.children = true →
      (name = "" ∨ name = lastComp comps) →
      forestNamesOk (insertGo name d st m pre comps cur).children = true := by
  intro comps
  induction comps with
  | nil => intro pre name m cur h _; exact h
  | cons c rest ih =>
      intro pre name m cur h hname
      unfold insertGo
      cases hf : findChild? cur.children c with
      | some ch =>
          rw [withChildren_children]
          have hch : treeNamesOk ch = true :=
            (forestNamesOk_iff cur.children).mp h ch (findChild?_some_key hf).2
          rw [forestNamesOk_iff]
          intro x hx
          rcases mem_replaceChild hx with hx | hx
          · subst hx
            by_cases hrest : rest = []
            · rw [if_pos hrest]
              subst hrest
              show treeNamesOk (ch.setStatus st) = true
              exact setStatus_facts_names st hch
            · rw [if_neg hrest]
              have hfacts := insertGo_facts name d st m rest (pre ++ [c]) ch
              refine treeNamesOk_of ?_ (ih (pre ++ [c]) name m ch
                (treeNamesOk_parts hch).2 ?_)
              · have hn : (insertGo name d st m (pre ++ [c]) rest ch).name = ch.name :=
                  congrArg (fun x => x.1) hfacts
                have hp : (insertGo name d st m (pre ++ [c]) rest ch).path = ch.path :=
                  congrArg (fun x => x.2.1) hfacts
                rw [hn, hp]
                exact (treeNamesOk_parts hch).1
              · rcases hname with h0 | h0
                · exact Or.inl h0
                · exact Or.inr (h0.trans (lastComp_cons_ne hrest))
          · exact (forestNamesOk_iff cur.children).mp h x hx
      | none =>
          rw [withChildren_children]
          rw [forestNamesOk_iff]
          intro x hx
          rcases List.mem_append.mp hx with hx | hx
          · exact (forestNamesOk_iff cur.children).mp h x hx
          · rw [List.mem_singleton] at hx
            subst hx
            by_cases hrest : rest = []
            · rw [if_pos hrest]
              subst hrest
              show treeNamesOk (FileNode.newWithMeta name (pre ++ [c]) d st m) = true
              refine treeNamesOk_of ?_ ?_
              · cases m <;>
                  · unfold FileNode.newWithMeta
                    simp only [FileNode.name_mk, FileNode.path_mk]
                    rcases hname with h0 | h0
                    · exact Or.inl h0
                    · exact Or.inr (by rw [h0, lastComp_append_single]; rfl)
              · cases m <;> rfl
            · rw [if_neg hrest]
              have hfacts := insertGo_facts name d st m rest (pre ++ [c])
                (FileNode.new c (pre ++ [c]) true .same)
              refine treeNamesOk_of ?_ (ih (pre ++ [c]) name m _ rfl ?_)
              · have hn : (insertGo name d st m (pre ++ [c]) rest
                    (FileNode.new c (pre ++ [c]) true .same)).name = c :=
                  congrArg (fun x => x.1) hfacts
                have hp : (insertGo name d st m (pre ++ [c]) rest
                    (FileNode.new c (pre ++ [c]) true .same)).path = pre ++ [c] :=
                  congrArg (fun x => x.2.1) hfacts
                rw [hn, hp, lastComp_append_single]
                exact Or.inr rfl
              · rcases hname with h0 | h0
                · exact Or.inl h0
                · exact Or.inr (h0.trans (lastComp_cons_ne hrest))

theorem wfTree_mk (nm : String) (p : RPath) (d : Bool) (st : FStatus)
    (cs : List FileNode) (e : Bool) (sz md : Option Nat) :
    wfTree (.mk nm p d st cs e sz md) =
      (decide ((cs.map (fun ch => lastComp ch.path)).Nodup) &&
        cs.all (fun ch => decide (ch.path = p ++ [lastComp ch.path])) &&
        wfForest cs) := rfl

theorem wfForest_cons (c : FileNode) (cs : List FileNode) :
    wfForest (c :: cs) = (wfTree c && wfForest cs) := rfl

theorem wfForest_iff (cs : List FileNode) :
    wfForest cs = true ↔ ∀ c ∈ cs, wfTree c = true := by
  induction cs with
  | nil => simp [wfForest]
  | cons c cs ih =>
      rw [wfForest_cons]
      simp only [Bool.and_eq_true, ih]
      constructor
      · rintro ⟨h1, h2⟩ x hx
        rcases List.mem_cons.mp hx with h | h
        · exact h ▸ h1
        · exact h2 x h
      · intro h
        exact ⟨h c (List.mem_cons_self c cs),
          fun x hx => h x (List.mem_cons_of_mem _ hx)⟩

theorem wfTree_parts {n : FileNode} (h : wfTree n = true) :
    (n.children.map (fun ch => lastComp ch.path)).Nodup ∧
    (∀ ch ∈ n.children, ch.path = n.path ++ [lastComp ch.path]) ∧
    wfForest n.children = true := by
  obtain ⟨nm, p, d, st, cs, e, sz, md⟩ := n
  rw [wfTree_mk] at h
  simp only [Bool.and_eq_true, decide_eq_true_eq, List.all_eq_true] at h
  exact ⟨h.1.1, fun ch hch => h.1.2 ch hch, h.2⟩

theorem wfTree_of {n : FileNode}
    (h1 : (n.children.map (fun ch => lastComp ch.path)).Nodup)
    (h2 : ∀ ch ∈ n.children, ch.path = n.path ++ [lastComp ch.path])
    (h3 : wfForest n.children = true) : wfTree n = true := by
  obtain ⟨nm, p, d, st, cs, e, sz, md⟩ := n
  rw [wfTree_mk]
  simp only [FileNode.children_mk, FileNode.path_mk] at h1 h2 h3
  simp only [Bool.and_eq_true, decide_eq_true_eq, List.all_eq_true]
  exact ⟨⟨h1, fun ch hch => h2 ch hch⟩, h3⟩

theorem wfTree_setStatus {n : FileNode} (st : FStatus) (h : wfTree n = true) :
    wfTree (n.setStatus st) = true := by
  obtain ⟨nm, p, d, st0, cs, e, sz, md⟩ := n
  rw [wfTree_mk] at h
  show wfTree (FileNode.mk nm p d st cs e sz md) = true
  rw [wfTree_mk]
  exact h

theorem replaceChild_keys {cs : List FileNode} {c : String} {n ch : FileNode}
    (hf : findChild? cs c = some ch) (hp : n.path = ch.path) :
    (replaceChild c n cs).map (fun x => lastComp x.path) =
      cs.map (fun x => lastComp x.path) := by
  induction cs with
  | nil => exact absurd hf (by simp [findChild?])
  | cons a as ih =>
      unfold findChild? at hf
      rw [List.find?_cons] at hf
      unfold replaceChild
      cases hpred : decide (lastComp a.path = c) with
      | true =>
          rw [hpred] at hf
          have ha : a = ch := Option.some.inj hf
          rw [if_pos (by simpa using hpred)]
          simp [hp, ha]
      | false =>
          rw [hpred] at hf
          rw [if_neg (by simpa using hpred)]
          simp only [List.map_cons]
          rw [ih hf]

/-- Inserting a fresh or existing path keeps the tree well-formed: sibling
keys stay distinct and every child's path still extends its parent's path by
its own last component. -/
theorem insertGo_wf (d : Bool) (st : FStatus) :
    ∀ (comps pre : RPath) (name : String) (m : Option FsMeta) (cur : FileNode),
      wfTree cur = true → cur.path = pre →
      wfTree (insertGo name d st m pre comps cur) = true := by
  intro comps
  induction comps with
  | nil => intro pre name m cur h _; exact h
  | cons c rest ih =>
      intro pre name m cur h hpre
      obtain ⟨hkeys, hcoh, hforest⟩ := wfTree_parts h
      unfold insertGo
      cases hf : findChild? cur.children c with
      | some ch =>
          have hkey := (findChild?_some_key hf).1
          have hmem := (findChild?_some_key hf).2
          have hchpath : ch.path = pre ++ [c] := by
            rw [hcoh ch hmem, hkey, hpre]
          have hchwf : wfTree ch = true := (wfForest_iff _).mp hforest ch hmem
          set ch0 := if rest = [] then ch.setStatus st else ch with hch0
          have hch0path : ch0.path = pre ++ [c] := by
            rw [hch0]
            by_cases hrest : rest = []
            · rw [if_pos hrest, setStatus_path]
              exact hchpath
            · rw [if_neg hrest]
              exact hchpath
          have hch0wf : wfTree ch0 = true := by
            rw [hch0]
            by_cases hrest : rest = []
            · rw [if_pos hrest]
              exact wfTree_setStatus st hchwf
            · rw [if_neg hrest]
              exact hchwf
          have hch1wf : wfTree (insertGo name d st m (pre ++ [c]) rest ch0) = true :=
            ih (pre ++ [c]) name m ch0 hch0wf hch0path
          have hch1path : (insertGo name d st m (pre ++ [c]) rest ch0).path = ch.path := by
            rw [insertGo_path, hch0path, hchpath]
          refine wfTree_of ?_ ?_ ?_
          · rw [withChildren_children,
              replaceChild_keys hf hch1path]
            exact hkeys
          · rw [withChildren_children]
            intro x hx
            rw [withChildren_path]
            rcases mem_replaceChild hx with hx | hx
            · subst hx
              rw [hch1path, hchpath, lastComp_append_single, hpre]
            · exact hcoh x hx
          · rw [withChildren_children, wfForest_iff]
            intro x hx
            rcases mem_replaceChild hx with hx | hx
            · subst hx
              exact hch1wf
            · exact (wfForest_iff _).mp hforest x hx
      | none =>
          set newNode :=
            if rest = [] then FileNode.newWithMeta name (pre ++ [c]) d st m
            else FileNode.new c (pre ++ [c]) true .same with hnew
          have hnewpath : newNode.path = pre ++ [c] := by
            rw [hnew]
            by_cases hrest : rest = []
            · rw [if_pos hrest]
              cases m <;> rfl
            · rw [if_neg hrest]
              rfl
          have hnewwf : wfTree newNode = true := by
            rw [hnew]
            by_cases hrest : rest = []
            · rw [if_pos hrest]
              cases m <;> rfl
            · rw [if_neg hrest]
              rfl
          have hch1wf : wfTree (insertGo name d st m (pre ++ [c]) rest newNode) = true :=
            ih (pre ++ [c]) name m newNode hnewwf hnewpath
          have hch1path : (insertGo name d st m (pre ++ [c]) rest newNode).path
              = pre ++ [c] := by
            rw [insertGo_path, hnewpath]
          refine wfTree_of ?_ ?_ ?_
          · rw [withChildren_children, List.map_append]
            simp only [List.map_cons, List.map_nil, hch1path, lastComp_append_single]
            have hnotin : c ∉ cur.children.map (fun x => lastComp x.path) := by
              intro hc
              obtain ⟨x, hx, hxc⟩ := List.mem_map.mp hc
              exact findChild?_none_keys hf x hx hxc
            simp [List.nodup_append, hkeys, hnotin]
          · rw [withChildren_children]
            intro x hx
            rw [withChildren_path]
            rcases List.mem_append.mp hx with hx | hx
            · exact hcoh x hx
            · rw [List.mem_singleton] at hx
              subst hx
              rw [hch1path, lastComp_append_single, hpre]
          · rw [withChildren_children, wfForest_iff]
            intro x hx
            rcases List.mem_append.mp hx with hx | hx
            · exact (wfForest_iff _).mp hforest x hx
            · rw [List.mem_singleton] at hx
              subst hx
              exact hch1wf

theorem findPath_nil (n : FileNode) : findPath n [] = some n := rfl

theorem findPath_cons (n : FileNode) (c : String) (rest : RPath) :
    findPath n (c :: rest) = match findChild? n.children c with
      | some ch => findPath ch rest
      | none => none := rfl

theorem findPath_cons_some {n ch : FileNode} {c : String} (rest : RPath)
    (h : findChild? n.children c = some ch) :
    findPath n (c :: rest) = findPath ch rest := by
  rw [findPath_cons, h]

theorem findPath_cons_none {n : FileNode} {c : String} (rest : RPath)
    (h : findChild? n.children c = none) :
    findPath n (c :: rest) = none := by
  rw [findPath_cons, h]

theorem findPath_append (n : FileNode) (a b : RPath) :
    findPath n (a ++ b) = (findPath n a).bind (fun x => findPath x b) := by
  induction a generalizing n with
  | nil => rfl
  | cons c rest ih =>
      rw [List.cons_append]
      cases hf : findChild? n.children c with
      | some ch =>
          rw [findPath_cons_some (rest ++ b) hf, findPath_cons_some rest hf, ih]
      | none =>
          rw [findPath_cons_none (rest ++ b) hf, findPath_cons_none rest hf]
          rfl

theorem findChild?_append_single (cs : List FileNode) (x : FileNode) (c : String) :
    findChild? (cs ++ [x]) c =
      match findChild? cs c with
      | some ch => some ch
      | none => if lastComp x.path = c then some x else none := by
  induction cs with
  | nil =>
      show findChild? [x] c = _
      unfold findChild?
      rw [List.find?_cons]
      cases hd : decide (lastComp x.path = c) with
      | true => rw [if_pos (of_decide_eq_true hd)]; rfl
      | false => rw [if_neg (of_decide_eq_false hd)]; rfl
  | cons a as ih =>
      unfold findChild?
      rw [List.cons_append, List.find?_cons, List.find?_cons]
      cases hd : decide (lastComp a.path = c) with
      | true => rfl
      | false => exact ih

theorem replaceChild_findChild_self {cs : List FileNode} {c : String} {ch n : FileNode}
    (hf : findChild? cs c = some ch) (hn : lastComp n.path = c) :
    findChild? (replaceChild c n cs) c = some n := by
  induction cs with
  | nil => exact absurd hf (by simp [findChild?])
  | cons a as ih =>
      unfold findChild? at hf
      rw [List.find?_cons] at hf
      unfold replaceChild
      by_cases hk : lastComp a.path = c
      · rw [if_pos hk]
        unfold findChild?
        rw [List.find?_cons, hn]
        simp
      · rw [if_neg hk]
        rw [decide_eq_false hk] at hf
        unfold findChild?
        rw [List.find?_cons, decide_eq_false hk]
        exact ih hf

theorem replaceChild_findChild_other {cs : List FileNode} {c c' : String} {n : FileNode}
    (hn : lastComp n.path = c) (hne : c' ≠ c) :
    findChild? (replaceChild c n cs) c' = findChild? cs c' := by
  induction cs with
  | nil => rfl
  | cons a as ih =>
      unfold replaceChild
      by_cases hk : lastComp a.path = c
      · rw [if_pos hk]
        unfold findChild?
        rw [List.find?_cons, List.find?_cons, hn, hk,
          decide_eq_false (fun h => hne h.symm)]
      · rw [if_neg hk]
        unfold findChild?
        rw [List.find?_cons, List.find?_cons]
        cases hd : decide (lastComp a.path = c') with
        | true => rfl
        | false => exact ih

theorem newWithMeta_path (name : String) (p : RPath) (d : Bool) (st : FStatus)
    (m : Option FsMeta) : (FileNode.newWithMeta name p d st m).path = p := by
  cases m <;> rfl

theorem newWithMeta_children (name : String) (p : RPath) (d : Bool) (st : FStatus)
    (m : Option FsMeta) : (FileNode.newWithMeta name p d st m).children = [] := by
  cases m <;> rfl

/-- Inserting a path not yet in the tree, all of whose proper non-empty
prefixes are already present, creates exactly one new node — a leaf with the
requested name, path, directory flag, status and metadata — and leaves the
observable fields of every other reachable node unchanged. -/
theorem insertGo_findPath (d : Bool) (st : FStatus) :
    ∀ (comps pre : RPath) (name : String) (m : Option FsMeta) (cur : FileNode),
      comps ≠ [] →
      findPath cur comps = none →
      (∀ q t, q ++ t = comps → q ≠ [] → t ≠ [] → (findPath cur q).isSome = true) →
      ∀ q : RPath,
        (findPath (insertGo name d st m pre comps cur) q).map nodeFacts =
          if q = comps then
            some (nodeFacts (FileNode.newWithMeta name (pre ++ comps) d st m))
          else (findPath cur q).map nodeFacts := by
  intro comps
  induction comps with
  | nil => intro pre name m cur hne; exact absurd rfl hne
  | cons c rest ih =>
      intro pre name m cur _ hnone hpres q
      by_cases hrest : rest = []
      · subst hrest
        cases hfc : findChild? cur.children c with
        | some ch =>
            exfalso
            rw [findPath_cons_some [] hfc, findPath_nil] at hnone
            exact Option.noConfusion hnone
        | none =>
            have hstep : insertGo name d st m pre [c] cur =
                cur.withChildren (cur.children ++
                  [FileNode.newWithMeta name (pre ++ [c]) d st m]) := by
              unfold insertGo
              rw [hfc]
              rfl
            rw [hstep]
            have hkey : lastComp (FileNode.newWithMeta name (pre ++ [c]) d st m).path
                = c := by
              rw [newWithMeta_path, lastComp_append_single]
            cases q with
            | nil =>
                rw [if_neg (by simp)]
                simp only [findPath_nil, Option.map_some']
                rw [withChildren_facts]
            | cons c' qrest =>
                by_cases hc : c' = c
                · subst hc
                  have hfc2 : findChild? (cur.withChildren (cur.children ++
                      [FileNode.newWithMeta name (pre ++ [c']) d st m])).children c' =
                      some (FileNode.newWithMeta name (pre ++ [c']) d st m) := by
                    rw [withChildren_children, findChild?_append_single, hfc]
                    rw [if_pos hkey]
                  rw [findPath_cons_some qrest hfc2]
                  cases qrest with
                  | nil =>
                      rw [if_pos rfl, findPath_nil]
                      rfl
                  | cons a b =>
                      rw [if_neg (by simp)]
                      have hn2 : findChild? (FileNode.newWithMeta name (pre ++ [c'])
                          d st m).children a = none := by
                        rw [newWithMeta_children]; rfl
                      rw [findPath_cons_none b hn2, findPath_cons_none (a :: b) hfc]
                · rw [if_neg (by simp [hc])]
                  have hfc2 : findChild? (cur.withChildren (cur.children ++
                      [FileNode.newWithMeta name (pre ++ [c]) d st m])).children c' =
                      findChild? cur.children c' := by
                    rw [withChildren_children, findChild?_append_single]
                    cases hfc' : findChild? cur.children c' with
                    | some ch' => rfl
                    | none =>
                        have : lastComp (FileNode.newWithMeta name (pre ++ [c])
                            d st m).path ≠ c' := by
                          rw [hkey]; exact fun h => hc h.symm
                        rw [if_neg this]
                  cases hfc' : findChild? cur.children c' with
                  | some ch' =>
                      rw [findPath_cons_some qrest (hfc2.trans hfc'),
                        findPath_cons_some qrest hfc']
                  | none =>
                      rw [findPath_cons_none qrest (hfc2.trans hfc'),
                        findPath_cons_none qrest hfc']
      · have hc1 : (findPath cur [c]).isSome = true :=
          hpres [c] rest rfl (by simp) hrest
        cases hfc : findChild? cur.children c with
        | none =>
            exfalso
            rw [findPath_cons_none [] hfc] at hc1
            simp at hc1
        | some ch =>
            have hstep : insertGo name d st m pre (c :: rest) cur =
                cur.withChildren (replaceChild c
                  (insertGo name d st m (pre ++ [c]) rest ch) cur.children) := by
              conv_lhs => unfold insertGo
              rw [hfc]
              simp only [if_neg hrest]
            have hch1key : lastComp (insertGo name d st m (pre ++ [c]) rest ch).path
                = c := by
              rw [insertGo_path]
              exact (findChild?_some_key hfc).1
            have hihch : ∀ q' : RPath,
                (findPath (insertGo name d st m (pre ++ [c]) rest ch) q').map nodeFacts =
                  if q' = rest then
                    some (nodeFacts (FileNode.newWithMeta name ((pre ++ [c]) ++ rest)
                      d st m))
                  else (findPath ch q').map nodeFacts := by
              refine ih (pre ++ [c]) name m ch hrest ?_ ?_
              · rw [findPath_cons_some rest hfc] at hnone
                exact hnone
              · intro q' t hqt hq ht
                have h := hpres (c :: q') t (by rw [List.cons_append, hqt])
                  (by simp) ht
                rw [findPath_cons_some q' hfc] at h
                exact h
            rw [hstep]
            cases q with
            | nil =>
                rw [if_neg (by simp)]
                simp only [findPath_nil, Option.map_some']
                rw [withChildren_facts]
            | cons c' qrest =>
                by_cases hc : c' = c
                · subst hc
                  have hfc2 : findChild? (cur.withChildren (replaceChild c'
                      (insertGo name d st m (pre ++ [c']) rest ch)
                      cur.children)).children c' =
                      some (insertGo name d st m (pre ++ [c']) rest ch) := by
                    rw [withChildren_children]
                    exact replaceChild_findChild_self hfc hch1key
                  rw [findPath_cons_some qrest hfc2,
                    findPath_cons_some qrest hfc, hihch qrest]
                  by_cases hq : qrest = rest
                  · subst hq
                    rw [if_pos rfl, if_pos rfl]
                    rw [List.append_assoc, List.singleton_append]
                  · rw [if_neg hq, if_neg (by simpa using hq)]
                · rw [if_neg (by simp [hc])]
                  have hfc2 : findChild? (cur.withChildren (replaceChild c
                      (insertGo name d st m (pre ++ [c]) rest ch)
                      cur.children)).children c' = findChild? cur.children c' := by
                    rw [withChildren_children]
                    exact replaceChild_findChild_other hch1key hc
                  cases hfc' : findChild? cur.children c' with
                  | some ch' =>
                      rw [findPath_cons_some qrest (hfc2.trans hfc'),
                        findPath_cons_some qrest hfc']
                  | none =>
                      rw [findPath_cons_none qrest (hfc2.trans hfc'),
                        findPath_cons_none qrest hfc']

/-- Shape of a mapping produced by `collect_paths_with_progress`: relative
keys are distinct and non-empty, and every proper non-empty prefix of a key is
itself a key mapped to directory metadata (the walker visits a directory
before anything inside it). -/
def scanLikeB (l : List (RPath × FsMeta)) : Bool :=
  decide ((l.map Prod.fst).Nodup) &&
    (l.map Prod.fst).all (fun p =>
      (!decide (p = [])) &&
      p.inits.all (fun q =>
        decide (q = []) || decide (q = p) ||
          ((lookupMeta l q).map FsMeta.isDir).getD false))

theorem scanLike_nodup {l : List (RPath × FsMeta)} (h : scanLikeB l = true) :
    (l.map Prod.fst).Nodup := by
  unfold scanLikeB at h
  simp only [Bool.and_eq_true, decide_eq_true_eq] at h
  exact h.1

theorem scanLike_ne_nil {l : List (RPath × FsMeta)} (h : scanLikeB l = true) :
    ∀ p ∈ l.map Prod.fst, p ≠ [] := by
  unfold scanLikeB at h
  simp only [Bool.and_eq_true, List.all_eq_true] at h
  intro p hp
  have := h.2 p hp
  simp only [Bool.and_eq_true, Bool.not_eq_true', decide_eq_false_iff_not] at this
  exact this.1

theorem scanLike_closed {l : List (RPath × FsMeta)} (h : scanLikeB l = true) :
    ∀ p ∈ l.map Prod.fst, ∀ q t : RPath, q ++ t = p → q ≠ [] → t ≠ [] →
      ((lookupMeta l q).map FsMeta.isDir).getD false = true := by
  unfold scanLikeB at h
  simp only [Bool.and_eq_true, List.all_eq_true] at h
  intro p hp q t hqt hq ht
  have h2 := (h.2 p hp).2 q ((List.mem_inits q p).mpr ⟨t, hqt⟩)
  have hqp : q ≠ p := by
    intro hc
    subst hc
    have := congrArg List.length hqt
    rw [List.length_append] at this
    have ht' : t.length ≠ 0 := fun hz => ht (List.length_eq_zero.mp hz)
    omega
  simp only [Bool.or_eq_true, decide_eq_true_eq] at h2
  rcases h2 with (h2 | h2) | h2
  · exact absurd h2 hq
  · exact absurd h2 hqp
  · exact h2

theorem lookupMeta_isSome_iff (l : List (RPath × FsMeta)) (p : RPath) :
    (lookupMeta l p).isSome = true ↔ p ∈ l.map Prod.fst := by
  unfold lookupMeta
  rw [Option.isSome_map']
  rw [List.find?_isSome]
  constructor
  · rintro ⟨x, hx, hpx⟩
    exact List.mem_map.mpr ⟨x, hx, of_decide_eq_true hpx⟩
  · rintro hp
    obtain ⟨x, hx, hpx⟩ := List.mem_map.mp hp
    exact ⟨x, hx, decide_eq_true hpx⟩

theorem lookupMeta_eq_none_iff (l : List (RPath × FsMeta)) (p : RPath) :
    lookupMeta l p = none ↔ p ∉ l.map Prod.fst := by
  rw [← lookupMeta_isSome_iff l p]
  cases lookupMeta l p <;> simp

theorem mem_unionPaths {left right : List (RPath × FsMeta)} {p : RPath} :
    p ∈ unionPaths left right ↔
      p ∈ left.map Prod.fst ∨ p ∈ right.map Prod.fst := by
  unfold unionPaths
  rw [(List.perm_insertionSort pathLe _).mem_iff, List.mem_dedup, List.mem_append]

theorem unionPaths_nodup (left right : List (RPath × FsMeta)) :
    (unionPaths left right).Nodup :=
  (List.perm_insertionSort pathLe _).nodup_iff.mpr (List.nodup_dedup _)

theorem unionPaths_sorted (left right : List (RPath × FsMeta)) :
    (unionPaths left right).Pairwise pathLe :=
  List.sorted_insertionSort pathLe _

theorem nodeFacts_fields {a b : FileNode} (h : nodeFacts a = nodeFacts b) :
    a.name = b.name ∧ a.path = b.path ∧ a.isDir = b.isDir ∧
      a.status = b.status ∧ a.expanded = b.expanded ∧
      a.size = b.size ∧ a.modified = b.modified := by
  unfold nodeFacts at h
  simp only [Prod.mk.injEq] at h
  exact ⟨h.1, h.2.1, h.2.2.1, h.2.2.2.1, h.2.2.2.2.1, h.2.2.2.2.2.1,
    h.2.2.2.2.2.2⟩

theorem newWithMeta_name (nm : String) (p : RPath) (d : Bool) (st : FStatus)
    (m : Option FsMeta) : (FileNode.newWithMeta nm p d st m).name = nm := by
  cases m <;> rfl

theorem newWithMeta_isDir (nm : String) (p : RPath) (d : Bool) (st : FStatus)
    (m : Option FsMeta) : (FileNode.newWithMeta nm p d st m).isDir = d := by
  cases m <;> rfl

theorem newWithMeta_status (nm : String) (p : RPath) (d : Bool) (st : FStatus)
    (m : Option FsMeta) : (FileNode.newWithMeta nm p d st m).status = st := by
  cases m <;> rfl

theorem newWithMeta_size_none (nm : String) (p : RPath) (d : Bool)
    (st : FStatus) : (FileNode.newWithMeta nm p d st none).size = none := rfl

theorem newWithMeta_modified_none (nm : String) (p : RPath) (d : Bool)
    (st : FStatus) : (FileNode.newWithMeta nm p d st none).modified = none := rfl

/-- Invariant of the path-insertion fold in `compare_trees_with_progress`,
parameterised by the set `done` of already processed union paths: the two
accumulator trees are mirror images, well-formed, rooted at the empty relative
path, contain exactly the processed paths, and at each processed path hold the
exact node the branch of the loop created for it. -/
def BuildInv (lookL lookR : RPath → Option FsMeta) (oracle : RPath → Option Bool)
    (done : List RPath) (lt rt : FileNode) : Prop :=
  mirror lt rt = true ∧
  wfTree lt = true ∧ wfTree rt = true ∧
  forestNamesOk lt.children = true ∧ forestNamesOk rt.children = true ∧
  lt.path = [] ∧ rt.path = [] ∧
  (∀ q : RPath, (findPath lt q).isSome = true ↔ (q = [] ∨ q ∈ done)) ∧
  (∀ q : RPath, (findPath rt q).isSome = true ↔ (q = [] ∨ q ∈ done)) ∧
  (∀ q ∈ done,
    ∃ st : FStatus, declStatus? lookL lookR oracle q = some st ∧
      (findPath lt q).map nodeFacts =
        some (nodeFacts (FileNode.newWithMeta
          (if st = FStatus.rightOnly then "" else lastComp q) q
          (declDir lookL lookR q) st
          (if st = FStatus.rightOnly then none else lookL q))) ∧
      (findPath rt q).map nodeFacts =
        some (nodeFacts (FileNode.newWithMeta
          (if st = FStatus.leftOnly then "" else lastComp q) q
          (declDir lookL lookR q) st
          (if st = FStatus.leftOnly then none else lookR q))))

theorem findPath_mkRoot (nm : String) (q : RPath) :
    (findPath (mkRoot nm) q).isSome = true ↔ q = [] := by
  cases q with
  | nil => simp [findPath_nil]
  | cons c rest =>
      rw [findPath_cons_none rest (by rfl)]
      simp

theorem buildInv_base (lookL lookR : RPath → Option FsMeta)
    (oracle : RPath → Option Bool) (lname rname : String) :
    BuildInv lookL lookR oracle [] (mkRoot lname) (mkRoot rname) := by
  refine ⟨rfl, rfl, rfl, rfl, rfl, rfl, rfl, ?_, ?_, ?_⟩
  · intro q
    rw [findPath_mkRoot]
    simp
  · intro q
    rw [findPath_mkRoot]
    simp
  · intro q hq
    exact absurd hq (by simp)

theorem processPath_some {lookL lookR : RPath → Option FsMeta}
    {oracle : RPath → Option Bool} {lt rt lt' rt' : FileNode} {p : RPath}
    (hp : p ≠ [])
    (hstep : processPath lookL lookR oracle (lt, rt) p = some (lt', rt')) :
    ∃ st : FStatus, declStatus? lookL lookR oracle p = some st ∧
      lt' = insertGo (if st = FStatus.rightOnly then "" else lastComp p)
        (declDir lookL lookR p) st
        (if st = FStatus.rightOnly then none else lookL p) [] p lt ∧
      rt' = insertGo (if st = FStatus.leftOnly then "" else lastComp p)
        (declDir lookL lookR p) st
        (if st = FStatus.leftOnly then none else lookR p) [] p rt := by
  unfold processPath at hstep
  rw [if_neg hp] at hstep
  cases hds : declStatus? lookL lookR oracle p with
  | none => rw [hds] at hstep; exact Option.noConfusion hstep
  | some st =>
      rw [hds] at hstep
      refine ⟨st, rfl, ?_⟩
      cases st with
      | leftOnly =>
          have h := Option.some.inj hstep
          rw [Prod.mk.injEq] at h
          unfold insertIntoTree at h
          exact ⟨h.1.symm, h.2.symm⟩
      | rightOnly =>
          have h := Option.some.inj hstep
          rw [Prod.mk.injEq] at h
          unfold insertIntoTree at h
          exact ⟨h.1.symm, h.2.symm⟩
      | same =>
          have h := Option.some.inj hstep
          rw [Prod.mk.injEq] at h
          unfold insertIntoTree at h
          exact ⟨h.1.symm, h.2.symm⟩
      | different =>
          have h := Option.some.inj hstep
          rw [Prod.mk.injEq] at h
          unfold insertIntoTree at h
          exact ⟨h.1.symm, h.2.symm⟩

theorem buildStep {lookL lookR : RPath → Option FsMeta}
    {oracle : RPath → Option Bool} {done : List RPath} {p : RPath}
    {lt rt lt' rt' : FileNode}
    (hinv : BuildInv lookL lookR oracle done lt rt)
    (hp : p ≠ [])
    (hfresh : p ∉ done)
    (hpres : ∀ q t : RPath, q ++ t = p → q ≠ [] → t ≠ [] → q ∈ done)
    (hstep : processPath lookL lookR oracle (lt, rt) p = some (lt', rt')) :
    BuildInv lookL lookR oracle (done ++ [p]) lt' rt' := by
  obtain ⟨hmir, hwl, hwr, hnl, hnr, hpl, hpr, hdl, hdr, hfacts⟩ := hinv
  obtain ⟨st, hds, hlt', hrt'⟩ := processPath_some hp hstep
  have hltnone : findPath lt p = none := by
    cases hfp : findPath lt p with
    | none => rfl
    | some x =>
        have : (findPath lt p).isSome = true := by rw [hfp]; rfl
        rcases (hdl p).mp this with h | h
        · exact absurd h hp
        · exact absurd h hfresh
  have hrtnone : findPath rt p = none := by
    cases hfp : findPath rt p with
    | none => rfl
    | some x =>
        have : (findPath rt p).isSome = true := by rw [hfp]; rfl
        rcases (hdr p).mp this with h | h
        · exact absurd h hp
        · exact absurd h hfresh
  have hpresL : ∀ q t : RPath, q ++ t = p → q ≠ [] → t ≠ [] →
      (findPath lt q).isSome = true := by
    intro q t hqt hq ht
    exact (hdl q).mpr (Or.inr (hpres q t hqt hq ht))
  have hpresR : ∀ q t : RPath, q ++ t = p → q ≠ [] → t ≠ [] →
      (findPath rt q).isSome = true := by
    intro q t hqt hq ht
    exact (hdr q).mpr (Or.inr (hpres q t hqt hq ht))
  have hcharL := insertGo_findPath (declDir lookL lookR p) st p []
    (if st = FStatus.rightOnly then "" else lastComp p)
    (if st = FStatus.rightOnly then none else lookL p) lt hp hltnone hpresL
  have hcharR := insertGo_findPath (declDir lookL lookR p) st p []
    (if st = FStatus.leftOnly then "" else lastComp p)
    (if st = FStatus.leftOnly then none else lookR p) rt hp hrtnone hpresR
  rw [← hlt'] at hcharL
  rw [← hrt'] at hcharR
  refine ⟨?_, ?_, ?_, ?_, ?_, ?_, ?_, ?_, ?_, ?_⟩
  · rw [hlt', hrt']
    exact insertGo_mirror (declDir lookL lookR p) st p [] _ _ _ _ lt rt hmir
  · rw [hlt']
    exact insertGo_wf (declDir lookL lookR p) st p [] _ _ lt hwl hpl
  · rw [hrt']
    exact insertGo_wf (declDir lookL lookR p) st p [] _ _ rt hwr hpr
  · rw [hlt']
    refine insertGo_namesOk (declDir lookL lookR p) st p [] _ _ lt hnl ?_
    by_cases hro : st = FStatus.rightOnly
    · rw [if_pos hro]; exact Or.inl rfl
    · rw [if_neg hro]; exact Or.inr rfl
  · rw [hrt']
    refine insertGo_namesOk (declDir lookL lookR p) st p [] _ _ rt hnr ?_
    by_cases hlo : st = FStatus.leftOnly
    · rw [if_pos hlo]; exact Or.inl rfl
    · rw [if_neg hlo]; exact Or.inr rfl
  · rw [hlt', insertGo_path]
    exact hpl
  · rw [hrt', insertGo_path]
    exact hpr
  · intro q
    have hq := hcharL q
    by_cases hqp : q = p
    · subst hqp
      rw [if_pos rfl] at hq
      have : (findPath lt' q).isSome = true := by
        have := congrArg Option.isSome hq
        rw [Option.isSome_map'] at this
        rw [this]
        rfl
      simp [this]
    · rw [if_neg hqp] at hq
      have hiso : (findPath lt' q).isSome = (findPath lt q).isSome := by
        have := congrArg Option.isSome hq
        rw [Option.isSome_map', Option.isSome_map'] at this
        exact this
      rw [hiso, hdl q]
      simp [hqp]
  · intro q
    have hq := hcharR q
    by_cases hqp : q = p
    · subst hqp
      rw [if_pos rfl] at hq
      have : (findPath rt' q).isSome = true := by
        have := congrArg Option.isSome hq
        rw [Option.isSome_map'] at this
        rw [this]
        rfl
      simp [this]
    · rw [if_neg hqp] at hq
      have hiso : (findPath rt' q).isSome = (findPath rt q).isSome := by
        have := congrArg Option.isSome hq
        rw [Option.isSome_map', Option.isSome_map'] at this
        exact this
      rw [hiso, hdr q]
      simp [hqp]
  · intro q hq
    rcases List.mem_append.mp hq with hq | hq
    · obtain ⟨st', hds', hfl, hfr⟩ := hfacts q hq
      have hqp : q ≠ p := fun hc => hfresh (hc ▸ hq)
      refine ⟨st', hds', ?_, ?_⟩
      · rw [hcharL q, if_neg hqp]
        exact hfl
      · rw [hcharR q, if_neg hqp]
        exact hfr
    · rw [List.mem_singleton] at hq
      subst hq
      refine ⟨st, hds, ?_, ?_⟩
      · rw [hcharL q, if_pos rfl, List.nil_append]
      · rw [hcharR q, if_pos rfl, List.nil_append]

theorem buildFold (lookL lookR : RPath → Option FsMeta)
    (oracle : RPath → Option Bool) :
    ∀ (todo done : List RPath) (lt rt lt' rt' : FileNode),
      (done ++ todo).Pairwise pathLe →
      (done ++ todo).Nodup →
      (∀ p ∈ done ++ todo, p ≠ []) →
      (∀ p ∈ done ++ todo, ∀ q t : RPath, q ++ t = p → q ≠ [] → t ≠ [] →
        q ∈ done ++ todo) →
      BuildInv lookL lookR oracle done lt rt →
      todo.foldlM (processPath lookL lookR oracle) (lt, rt) = some (lt', rt') →
      BuildInv lookL lookR oracle (done ++ todo) lt' rt' := by
  intro todo
  induction todo with
  | nil =>
      intro done lt rt lt' rt' _ _ _ _ hinv hfold
      have h := Option.some.inj hfold
      rw [Prod.mk.injEq] at h
      rw [List.append_nil]
      rw [← h.1, ← h.2]
      exact hinv
  | cons p todo ih =>
      intro done lt rt lt' rt' hsorted hnodup hne hclosed hinv hfold
      rw [List.foldlM_cons] at hfold
      obtain ⟨acc, hacc, hrest⟩ := Option.bind_eq_some.mp hfold
      obtain ⟨lt1, rt1⟩ := acc
      have hpmem : p ∈ done ++ p :: todo :=
        List.mem_append.mpr (Or.inr (List.mem_cons_self p todo))
      have hp : p ≠ [] := hne p hpmem
      have hdisj := List.nodup_append.mp hnodup
      have hfresh : p ∉ done := fun hc =>
        hdisj.2.2 hc (List.mem_cons_self p todo)
      have hpres : ∀ q t : RPath, q ++ t = p → q ≠ [] → t ≠ [] → q ∈ done := by
        intro q t hqt hq ht
        have hqmem := hclosed p hpmem q t hqt hq ht
        rcases List.mem_append.mp hqmem with h | h
        · exact h
        · exfalso
          have hqinits : q ∈ p.inits := (List.mem_inits q p).mpr ⟨t, hqt⟩
          have hqp : q ≠ p := by
            intro hc
            subst hc
            have := congrArg List.length hqt
            rw [List.length_append] at this
            have ht' : t.length ≠ 0 := fun hz => ht (List.length_eq_zero.mp hz)
            omega
          have hnotle : ¬ pathLe p q := not_pathLe_of_mem_inits hqinits hqp
          have hsub : (p :: todo).Pairwise pathLe :=
            hsorted.sublist (List.sublist_append_right done (p :: todo))
          rcases List.mem_cons.mp h with h' | h'
          · exact hqp h'
          · exact hnotle ((List.pairwise_cons.mp hsub).1 q h')
      have hinv' : BuildInv lookL lookR oracle (done ++ [p]) lt1 rt1 :=
        buildStep hinv hp hfresh hpres hacc
      have hassoc : (done ++ [p]) ++ todo = done ++ p :: todo := by
        rw [List.append_assoc, List.singleton_append]
      have := ih (done ++ [p]) lt1 rt1 lt' rt'
        (by rw [hassoc]; exact hsorted)
        (by rw [hassoc]; exact hnodup)
        (by rw [hassoc]; exact hne)
        (by rw [hassoc]; exact hclosed)
        hinv' hrest
      rw [hassoc] at this
      exact this

theorem findChild?_of_mem_nodup :
    ∀ {cs : List FileNode} {ch : FileNode},
      ((cs.map fun x => lastComp x.path).Nodup) → ch ∈ cs →
      findChild? cs (lastComp ch.path) = some ch := by
  intro cs
  induction cs with
  | nil => intro ch _ hmem; exact absurd hmem (by simp)
  | cons a as ih =>
      intro ch hnd hmem
      rw [List.map_cons, List.nodup_cons] at hnd
      unfold findChild?
      rw [List.find?_cons]
      by_cases hk : lastComp a.path = lastComp ch.path
      · rw [decide_eq_true hk]
        rcases List.mem_cons.mp hmem with h | h
        · rw [h]
        · exact absurd (hk ▸ List.mem_map.mpr ⟨ch, h, rfl⟩) hnd.1
      · rw [decide_eq_false hk]
        rcases List.mem_cons.mp hmem with h | h
        · exact absurd (h ▸ rfl) hk
        · exact ih hnd.2 h

theorem findChild?_perm {cs cs' : List FileNode} (hperm : cs.Perm cs')
    (hnd : (cs.map fun x => lastComp x.path).Nodup) (c : String) :
    findChild? cs' c = findChild? cs c := by
  cases hfc : findChild? cs c with
  | some ch =>
      have hkey := (findChild?_some_key hfc).1
      have hmem := (findChild?_some_key hfc).2
      have hnd' : (cs'.map fun x => lastComp x.path).Nodup :=
        (hperm.map _).nodup_iff.mp hnd
      have hmem' : ch ∈ cs' := hperm.mem_iff.mp hmem
      rw [← hkey]
      exact findChild?_of_mem_nodup hnd' hmem'
  | none =>
      cases hfc' : findChild? cs' c with
      | none => rfl
      | some ch' =>
          exfalso
          have hkey' := (findChild?_some_key hfc').1
          have hmem' : ch' ∈ cs := hperm.mem_iff.mpr (findChild?_some_key hfc').2
          exact findChild?_none_keys hfc ch' hmem' hkey'

theorem findChild?_map {f : FileNode → FileNode}
    (hf : ∀ x : FileNode, (f x).path = x.path) (cs : List FileNode) (c : String) :
    findChild? (cs.map f) c = (findChild? cs c).map f := by
  induction cs with
  | nil => rfl
  | cons a as ih =>
      unfold findChild?
      rw [List.map_cons, List.find?_cons, List.find?_cons, hf a]
      cases hd : decide (lastComp a.path = c) with
      | true => rfl
      | false => exact ih

theorem sortTree_children (n : FileNode) :
    (sortTree n).children = (List.insertionSort nodeLe n.children).map sortTree := by
  obtain ⟨nm, p, d, st, cs, e, sz, md⟩ := n
  rw [sortTree_mk, sortForest_eq_map]
  rfl

/-- Sorting the children recursively changes only the order of each sibling
list: walking a path finds the sorted copy of exactly the node the unsorted
tree had. -/
theorem findPath_sortTree : ∀ (q : RPath) (n : FileNode), wfTree n = true →
    findPath (sortTree n) q = (findPath n q).map sortTree := by
  intro q
  induction q with
  | nil => intro n _; rw [findPath_nil, findPath_nil]; rfl
  | cons c rest ih =>
      intro n hwf
      obtain ⟨hkeys, hcoh, hforest⟩ := wfTree_parts hwf
      have hch : findChild? (sortTree n).children c =
          (findChild? n.children c).map sortTree := by
        rw [sortTree_children, findChild?_map sortTree_path _ c,
          findChild?_perm (List.perm_insertionSort nodeLe n.children).symm hkeys c]
      cases hfc : findChild? n.children c with
      | some ch =>
          rw [findPath_cons_some rest (by rw [hch, hfc]; rfl),
            findPath_cons_some rest hfc]
          exact ih ch ((wfForest_iff _).mp hforest ch (findChild?_some_key hfc).2)
      | none =>
          rw [findPath_cons_none rest (by rw [hch, hfc]; rfl),
            findPath_cons_none rest hfc]
          rfl

theorem wfTree_sortTree : ∀ n : FileNode, wfTree n = true →
    wfTree (sortTree n) = true := by
  intro n
  induction n using FileNode.strongInd with
  | _ n ihn =>
      intro hwf
      obtain ⟨hkeys, hcoh, hforest⟩ := wfTree_parts hwf
      refine wfTree_of ?_ ?_ ?_
      · rw [sortTree_children]
        have hmm : ((List.insertionSort nodeLe n.children).map sortTree).map
            (fun x => lastComp x.path) =
            (List.insertionSort nodeLe n.children).map (fun x => lastComp x.path) := by
          rw [List.map_map]
          congr 1
          funext x
          show lastComp (sortTree x).path = lastComp x.path
          rw [sortTree_path]
        rw [hmm]
        exact ((List.perm_insertionSort nodeLe n.children).map _).nodup_iff.mpr hkeys
      · rw [sortTree_children]
        intro x hx
        obtain ⟨y, hy, rfl⟩ := List.mem_map.mp hx
        have hy' : y ∈ n.children :=
          (List.perm_insertionSort nodeLe n.children).subset hy
        rw [sortTree_path, sortTree_path]
        exact hcoh y hy'
      · rw [sortTree_children, wfForest_iff]
        intro x hx
        obtain ⟨y, hy, rfl⟩ := List.mem_map.mp hx
        have hy' : y ∈ n.children :=
          (List.perm_insertionSort nodeLe n.children).subset hy
        exact ihn y hy' ((wfForest_iff _).mp hforest y hy')

/-- All observable fields of a node except its status (and children):
`update_folder_status` may only rewrite statuses. -/
def nodeView (n : FileNode) :
    String × RPath × Bool × Bool × Option Nat × Option Nat :=
  (n.name, n.path, n.isDir, n.expanded, n.size, n.modified)

theorem updateFolderStatus_file (nm : String) (p : RPath) (st : FStatus)
    (cs : List FileNode) (e : Bool) (sz md : Option Nat) :
    updateFolderStatus (.mk nm p false st cs e sz md) =
      .mk nm p false st cs e sz md := by
  rw [updateFolderStatus]
  simp

theorem updateFolderStatus_path (n : FileNode) :
    (updateFolderStatus n).path = n.path := by
  obtain ⟨nm, p, d, st, cs, e, sz, md⟩ := n
  cases d with
  | false => rw [updateFolderStatus_file]
  | true => rw [updateFolderStatus_dir]; rfl

theorem updateFolderStatus_view (n : FileNode) :
    nodeView (updateFolderStatus n) = nodeView n := by
  obtain ⟨nm, p, d, st, cs, e, sz, md⟩ := n
  cases d with
  | false => rw [updateFolderStatus_file]
  | true => rw [updateFolderStatus_dir]; rfl

theorem findChild?_updForest (cs : List FileNode) (c : String) :
    findChild? (updForest cs) c = (findChild? cs c).map updateFolderStatus := by
  rw [updForest_map]
  exact findChild?_map updateFolderStatus_path cs c

/-- `update_folder_status` never touches name, path, is-directory flag,
expansion state, size or modification time of any reachable node. -/
theorem findPath_update_view : ∀ (q : RPath) (n : FileNode),
    (findPath (updateFolderStatus n) q).map nodeView =
      (findPath n q).map nodeView := by
  intro q
  induction q with
  | nil =>
      intro n
      rw [findPath_nil, findPath_nil]
      simp only [Option.map_some']
      rw [updateFolderStatus_view]
  | cons c rest ih =>
      intro n
      obtain ⟨nm, p, d, st, cs, e, sz, md⟩ := n
      cases d with
      | false => rw [updateFolderStatus_file]
      | true =>
          rw [updateFolderStatus_dir]
          cases hfc : findChild? cs c with
          | some ch =>
              rw [findPath_cons_some rest
                (by rw [FileNode.children_mk, findChild?_updForest, hfc]; rfl)]
              rw [findPath_cons_some rest (by rw [FileNode.children_mk]; exact hfc)]
              exact ih ch
          | none =>
              rw [findPath_cons_none rest
                (by rw [FileNode.children_mk, findChild?_updForest, hfc]; rfl)]
              rw [findPath_cons_none rest (by rw [FileNode.children_mk]; exact hfc)]

/-- The node found at a path after `update_folder_status` is either the old
node with its folder status recomputed, or (under a non-directory ancestor)
the old node itself. -/
theorem findPath_update_cases : ∀ (q : RPath) (n x : FileNode),
    findPath n q = some x →
    ∃ y, findPath (updateFolderStatus n) q = some y ∧
      (y = updateFolderStatus x ∨ y = x) := by
  intro q
  induction q with
  | nil =>
      intro n x h
      rw [findPath_nil] at h
      exact ⟨updateFolderStatus n, by rw [findPath_nil],
        Or.inl (by rw [Option.some.inj h])⟩
  | cons c rest ih =>
      intro n x h
      obtain ⟨nm, p, d, st, cs, e, sz, md⟩ := n
      cases d with
      | false =>
          exact ⟨x, by rw [updateFolderStatus_file]; exact h, Or.inr rfl⟩
      | true =>
          cases hfc : findChild? cs c with
          | none =>
              rw [findPath_cons_none rest (by rw [FileNode.children_mk]; exact hfc)]
                at h
              exact Option.noConfusion h
          | some ch =>
              rw [findPath_cons_some rest (by rw [FileNode.children_mk]; exact hfc)]
                at h
              obtain ⟨y, hy, hcase⟩ := ih ch x h
              refine ⟨y, ?_, hcase⟩
              rw [updateFolderStatus_dir]
              rw [findPath_cons_some rest
                (by rw [FileNode.children_mk, findChild?_updForest, hfc]; rfl)]
              exact hy

theorem allStatus_mk (s : FStatus) (nm : String) (p : RPath) (d : Bool)
    (st : FStatus) (cs : List FileNode) (e : Bool) (sz md : Option Nat) :
    allStatus s (.mk nm p d st cs e sz md) =
      (decide (st = s) && allStatusForest s cs) := rfl

theorem allStatusForest_iff (s : FStatus) (cs : List FileNode) :
    allStatusForest s cs = true ↔ ∀ c ∈ cs, allStatus s c = true := by
  induction cs with
  | nil => simp [allStatusForest]
  | cons c cs ih =>
      show (allStatus s c && allStatusForest s cs) = true ↔ _
      simp only [Bool.and_eq_true, ih]
      constructor
      · rintro ⟨h1, h2⟩ x hx
        rcases List.mem_cons.mp hx with h | h
        · exact h ▸ h1
        · exact h2 x h
      · intro h
        exact ⟨h c (List.mem_cons_self c cs),
          fun x hx => h x (List.mem_cons_of_mem _ hx)⟩

theorem allStatus_parts {s : FStatus} {n : FileNode} (h : allStatus s n = true) :
    n.status = s ∧ ∀ c ∈ n.children, allStatus s c = true := by
  obtain ⟨nm, p, d, st, cs, e, sz, md⟩ := n
  rw [allStatus_mk, Bool.and_eq_true, decide_eq_true_eq] at h
  exact ⟨h.1, (allStatusForest_iff s cs).mp h.2⟩

theorem allStatus_of {s : FStatus} {n : FileNode} (h1 : n.status = s)
    (h2 : ∀ c ∈ n.children, allStatus s c = true) : allStatus s n = true := by
  obtain ⟨nm, p, d, st, cs, e, sz, md⟩ := n
  rw [allStatus_mk, Bool.and_eq_true, decide_eq_true_eq]
  exact ⟨h1, (allStatusForest_iff s cs).mpr h2⟩

theorem allStatus_sortTree {s : FStatus} : ∀ n : FileNode,
    allStatus s n = true → allStatus s (sortTree n) = true := by
  intro n
  induction n using FileNode.strongInd with
  | _ n ihn =>
      intro h
      obtain ⟨hst, hch⟩ := allStatus_parts h
      refine allStatus_of ?_ ?_
      · obtain ⟨nm, p, d, st, cs, e, sz, md⟩ := n
        rw [sortTree_mk]
        exact hst
      · rw [sortTree_children]
        intro x hx
        obtain ⟨y, hy, rfl⟩ := List.mem_map.mp hx
        have hy' : y ∈ n.children :=
          (List.perm_insertionSort nodeLe n.children).subset hy
        exact ihn y hy' (hch y hy')

theorem foldStatus_const (s : FStatus) (sts : List FStatus)
    (hall : ∀ x ∈ sts, x = s) : foldStatus s sts = s := by
  cases sts with
  | nil => rfl
  | cons a as =>
      have hany : ∀ v : FStatus,
          ((a :: as).any fun x => decide (x = v)) = decide (s = v) := by
        intro v
        cases hd : decide (s = v) with
        | true =>
            have hsv := of_decide_eq_true hd
            apply List.any_eq_true.mpr
            refine ⟨a, List.mem_cons_self a as, ?_⟩
            exact decide_eq_true (by rw [hall a (List.mem_cons_self a as), hsv])
        | false =>
            have hsv := of_decide_eq_false hd
            apply Bool.eq_false_iff.mpr
            intro hc
            obtain ⟨x, hx, hxd⟩ := List.any_eq_true.mp hc
            have hxv := of_decide_eq_true hxd
            rw [hall x hx] at hxv
            exact hsv hxv
      unfold foldStatus
      rw [if_neg (by simp)]
      rw [hany FStatus.different, hany FStatus.leftOnly, hany FStatus.rightOnly,
        hany FStatus.same]
      cases s <;> rfl

theorem allStatus_update {s : FStatus} : ∀ n : FileNode,
    allStatus s n = true → allStatus s (updateFolderStatus n) = true := by
  intro n
  induction n using FileNode.strongInd with
  | _ n ihn =>
      intro h
      obtain ⟨hst, hch⟩ := allStatus_parts h
      obtain ⟨nm, p, d, st, cs, e, sz, md⟩ := n
      simp only [FileNode.children_mk] at ihn hch
      simp only [FileNode.status_mk] at hst
      cases d with
      | false =>
          rw [updateFolderStatus_file]
          exact h
      | true =>
          rw [updateFolderStatus_dir]
          have hchildren : ∀ c ∈ updForest cs, allStatus s c = true := by
            rw [updForest_map]
            intro x hx
            obtain ⟨y, hy, rfl⟩ := List.mem_map.mp hx
            exact ihn y hy (hch y hy)
          refine allStatus_of ?_ ?_
          · show foldStatus st ((updForest cs).map FileNode.status) = s
            rw [hst]
            refine foldStatus_const s _ ?_
            intro x hx
            obtain ⟨y, hy, rfl⟩ := List.mem_map.mp hx
            exact (allStatus_parts (hchildren y hy)).1
          · exact hchildren

theorem allStatus_of_subpaths {s : FStatus} : ∀ n : FileNode, wfTree n = true →
    (∀ (q : RPath) (x : FileNode), findPath n q = some x → x.status = s) →
    allStatus s n = true := by
  intro n
  induction n using FileNode.strongInd with
  | _ n ihn =>
      intro hwf hsub
      obtain ⟨hkeys, _, hforest⟩ := wfTree_parts hwf
      refine allStatus_of (hsub [] n (findPath_nil n)) ?_
      intro ch hch
      refine ihn ch hch ((wfForest_iff _).mp hforest ch hch) ?_
      intro q x hx
      refine hsub (lastComp ch.path :: q) x ?_
      rw [findPath_cons_some q (findChild?_of_mem_nodup hkeys hch)]
      exact hx

theorem mirrorList_map_status {cs cs' : List FileNode}
    (h : mirrorList cs cs' = true) :
    cs.map FileNode.status = cs'.map FileNode.status := by
  induction cs generalizing cs' with
  | nil =>
      cases cs' with
      | nil => rfl
      | cons b bs =>
          have hf : mirrorList [] (b :: bs) = false := rfl
          rw [hf] at h
          exact Bool.noConfusion h
  | cons a as ihs =>
      cases cs' with
      | nil =>
          have hf : mirrorList (a :: as) [] = false := rfl
          rw [hf] at h
          exact Bool.noConfusion h
      | cons b bs =>
          rw [mirrorList_cons, Bool.and_eq_true] at h
          rw [List.map_cons, List.map_cons, mirror_status h.1, ihs h.2]

theorem mirrorList_map_of {f g : FileNode → FileNode} :
    ∀ (cs cs' : List FileNode), mirrorList cs cs' = true →
      (∀ x ∈ cs, ∀ y : FileNode, mirror x y = true → mirror (f x) (g y) = true) →
      mirrorList (cs.map f) (cs'.map g) = true := by
  intro cs
  induction cs with
  | nil =>
      intro cs' h _
      cases cs' with
      | nil => rfl
      | cons b bs =>
          have hf : mirrorList [] (b :: bs) = false := rfl
          rw [hf] at h
          exact Bool.noConfusion h
  | cons a as ihm =>
      intro cs' h hpt
      cases cs' with
      | nil =>
          have hf : mirrorList (a :: as) [] = false := rfl
          rw [hf] at h
          exact Bool.noConfusion h
      | cons b bs =>
          rw [mirrorList_cons, Bool.and_eq_true] at h
          rw [List.map_cons, List.map_cons, mirrorList_cons, Bool.and_eq_true]
          exact ⟨hpt a (List.mem_cons_self a as) b h.1,
            ihm bs h.2 (fun x hx => hpt x (List.mem_cons_of_mem _ hx))⟩

theorem mirror_update : ∀ a b : FileNode, mirror a b = true →
    mirror (updateFolderStatus a) (updateFolderStatus b) = true := by
  intro a
  induction a using FileNode.strongInd with
  | _ a iha =>
      intro b hm
      obtain ⟨nm, p, d, st, cs, e, sz, md⟩ := a
      obtain ⟨nm', p', d', st', cs', e', sz', md'⟩ := b
      obtain ⟨hp, hd, hst, he, hcs⟩ := mirror_fields hm
      simp only [FileNode.children_mk] at iha
      have hmp : mirrorList (cs.map updateFolderStatus)
          (cs'.map updateFolderStatus) = true :=
        mirrorList_map_of cs cs' hcs (fun x hx y hxy => iha x hx y hxy)
      cases hdv : d with
      | false =>
          rw [hdv] at hd
          rw [updateFolderStatus_file, ← hd, updateFolderStatus_file]
          rw [hdv] at hm
          rw [← hd] at hm
          exact hm
      | true =>
          rw [hdv] at hd
          rw [updateFolderStatus_dir, ← hd, updateFolderStatus_dir]
          have hstat : (updForest cs).map FileNode.status =
              (updForest cs').map FileNode.status := by
            rw [updForest_map, updForest_map]
            exact mirrorList_map_status hmp
          rw [mirror_mk]
          rw [hp, hst, he, hstat]
          simp only [decide_eq_true_eq, decide_True, Bool.and_true, Bool.true_and]
          rw [updForest_map, updForest_map]
          simp [hmp]

theorem findPath_wf : ∀ (q : RPath) (n x : FileNode), wfTree n = true →
    findPath n q = some x → wfTree x = true := by
  intro q
  induction q with
  | nil =>
      intro n x hw h
      rw [findPath_nil] at h
      rw [← Option.some.inj h]
      exact hw
  | cons c rest ih =>
      intro n x hw h
      cases hfc : findChild? n.children c with
      | none =>
          rw [findPath_cons_none rest hfc] at h
          exact Option.noConfusion h
      | some ch =>
          rw [findPath_cons_some rest hfc] at h
          exact ih ch x ((wfForest_iff _).mp (wfTree_parts hw).2.2 ch
            (findChild?_some_key hfc).2) h

theorem sortTree_view (n : FileNode) : nodeView (sortTree n) = nodeView n := by
  obtain ⟨nm, p, d, st, cs, e, sz, md⟩ := n
  rw [sortTree_mk]
  rfl

theorem nodeView_eq_of_facts {a b : FileNode} (h : nodeFacts a = nodeFacts b) :
    nodeView a = nodeView b := by
  obtain ⟨h1, h2, h3, _, h5, h6, h7⟩ := nodeFacts_fields h
  unfold nodeView
  rw [h1, h2, h3, h5, h6, h7]

theorem nodeView_fields {a b : FileNode} (h : nodeView a = nodeView b) :
    a.name = b.name ∧ a.path = b.path ∧ a.isDir = b.isDir ∧
      a.expanded = b.expanded ∧ a.size = b.size ∧ a.modified = b.modified := by
  unfold nodeView at h
  simp only [Prod.mk.injEq] at h
  exact ⟨h.1, h.2.1, h.2.2.1, h.2.2.2.1, h.2.2.2.2.1, h.2.2.2.2.2⟩

theorem compareTreesPure_some {lname rname : String}
    {lookL lookR : RPath → Option FsMeta} {oracle : RPath → Option Bool}
    {paths : List RPath} {lt rt : FileNode}
    (h : compareTreesPure lname rname lookL lookR oracle paths = some (lt, rt)) :
    ∃ l0 r0 : FileNode,
      paths.foldlM (processPath lookL lookR oracle)
        (mkRoot lname, mkRoot rname) = some (l0, r0) ∧
      lt = updateFolderStatus (sortTree l0) ∧
      rt = updateFolderStatus (sortTree r0) := by
  unfold compareTreesPure at h
  obtain ⟨lr, hlr, hmap⟩ := Option.map_eq_some'.mp h
  obtain ⟨l0, r0⟩ := lr
  rw [Prod.mk.injEq] at hmap
  exact ⟨l0, r0, hlr, hmap.1.symm, hmap.2.symm⟩

theorem allStatus_subtree {s : FStatus} {t0 np : FileNode} {p : RPath}
    (hw : wfTree t0 = true)
    (hfind : findPath t0 p = some np)
    (hall : ∀ (q : RPath) (x : FileNode), findPath t0 (p ++ q) = some x →
      x.status = s) :
    allStatus s np = true := by
  refine allStatus_of_subpaths np (findPath_wf p t0 np hw hfind) ?_
  intro q x hx
  refine hall q x ?_
  rw [findPath_append, hfind]
  exact hx

/-- C1: for every pair of scanned metadata mappings (distinct non-empty keys,
prefix-closed with directories at interior positions, as the directory walker
produces), a successful comparison yields trees of identical shape — mirror
images node by node: same child count and order at every depth, same relative
path, directory flag, status and expansion state — and every union path has a
node in BOTH trees with identical is-directory flag, the side lacking a real
entry holding a blank-named placeholder with no metadata whose subtree carries
the orphan status (`LeftOnly`/`RightOnly`) on both sides. -/
theorem tree_shape_invariant
    (lname rname : String) (left right : List (RPath × FsMeta))
    (oracle : RPath → Option Bool) (lt rt : FileNode)
    (hL : scanLikeB left = true) (hR : scanLikeB right = true)
    (h : fullCompare lname rname left right oracle = some (lt, rt)) :
    mirror lt rt = true ∧
    ∀ p ∈ unionPaths left right,
      ∃ nl nr : FileNode,
        findPath lt p = some nl ∧ findPath rt p = some nr ∧
        nl.path = p ∧ nr.path = p ∧ nl.isDir = nr.isDir ∧
        (lookupMeta left p = none →
          nl.name = "" ∧ nl.size = none ∧ nl.modified = none ∧
          nl.status = FStatus.rightOnly ∧ nr.status = FStatus.rightOnly) ∧
        (lookupMeta right p = none →
          nr.name = "" ∧ nr.size = none ∧ nr.modified = none ∧
          nr.status = FStatus.leftOnly ∧ nl.status = FStatus.leftOnly) := by
  unfold fullCompare at h
  obtain ⟨l0, r0, hfold, hlt, hrt⟩ := compareTreesPure_some h
  have hne : ∀ p ∈ unionPaths left right, p ≠ [] := by
    intro p hp
    rcases mem_unionPaths.mp hp with h' | h'
    · exact scanLike_ne_nil hL p h'
    · exact scanLike_ne_nil hR p h'
  have hclosed : ∀ p ∈ unionPaths left right, ∀ q t : RPath, q ++ t = p →
      q ≠ [] → t ≠ [] → q ∈ unionPaths left right := by
    intro p hp q t hqt hq ht
    rcases mem_unionPaths.mp hp with h' | h'
    · have hg := scanLike_closed hL p h' q t hqt hq ht
      have hiso : (lookupMeta left q).isSome = true := by
        cases hlq : lookupMeta left q with
        | none => rw [hlq] at hg; simp at hg
        | some m => rfl
      exact mem_unionPaths.mpr (Or.inl ((lookupMeta_isSome_iff left q).mp hiso))
    · have hg := scanLike_closed hR p h' q t hqt hq ht
      have hiso : (lookupMeta right q).isSome = true := by
        cases hlq : lookupMeta right q with
        | none => rw [hlq] at hg; simp at hg
        | some m => rfl
      exact mem_unionPaths.mpr (Or.inr ((lookupMeta_isSome_iff right q).mp hiso))
  have hinv := buildFold (lookupMeta left) (lookupMeta right) oracle
    (unionPaths left right) [] (mkRoot lname) (mkRoot rname) l0 r0
    (by rw [List.nil_append]; exact unionPaths_sorted left right)
    (by rw [List.nil_append]; exact unionPaths_nodup left right)
    (by rw [List.nil_append]; exact hne)
    (by rw [List.nil_append]; exact fun p hp q t hqt hq ht =>
      hclosed p hp q t hqt hq ht)
    (buildInv_base (lookupMeta left) (lookupMeta right) oracle lname rname)
    hfold
  rw [List.nil_append] at hinv
  obtain ⟨hmir0, hwl0, hwr0, hnl0, hnr0, hpl0, hpr0, hdl0, hdr0, hfacts0⟩ := hinv
  constructor
  · rw [hlt, hrt]
    exact mirror_update _ _ (mirror_sortTree l0 r0 hmir0 hnl0 hnr0)
  · intro p hp
    have hpne : p ≠ [] := hne p hp
    obtain ⟨st, hds, hfl, hfr⟩ := hfacts0 p hp
    obtain ⟨n0l, hn0l, hn0lf⟩ := Option.map_eq_some'.mp hfl
    obtain ⟨n0r, hn0r, hn0rf⟩ := Option.map_eq_some'.mp hfr
    have hsl : findPath (sortTree l0) p = some (sortTree n0l) := by
      rw [findPath_sortTree p l0 hwl0, hn0l]
      rfl
    have hsr : findPath (sortTree r0) p = some (sortTree n0r) := by
      rw [findPath_sortTree p r0 hwr0, hn0r]
      rfl
    obtain ⟨nl, hnlf, hnlc⟩ := findPath_update_cases p (sortTree l0) (sortTree n0l) hsl
    obtain ⟨nr, hnrf, hnrc⟩ := findPath_update_cases p (sortTree r0) (sortTree n0r) hsr
    have hVl : nodeView nl = nodeView n0l := by
      have h1 : nodeView nl = nodeView (sortTree n0l) := by
        rcases hnlc with h' | h'
        · rw [h', updateFolderStatus_view]
        · rw [h']
      rw [h1, sortTree_view]
    have hVr : nodeView nr = nodeView n0r := by
      have h1 : nodeView nr = nodeView (sortTree n0r) := by
        rcases hnrc with h' | h'
        · rw [h', updateFolderStatus_view]
        · rw [h']
      rw [h1, sortTree_view]
    have hfieldsL := nodeView_fields (hVl.trans (nodeView_eq_of_facts hn0lf))
    have hfieldsR := nodeView_fields (hVr.trans (nodeView_eq_of_facts hn0rf))
    refine ⟨nl, nr, by rw [hlt]; exact hnlf, by rw [hrt]; exact hnrf, ?_, ?_, ?_, ?_, ?_⟩
    · rw [hfieldsL.2.1, newWithMeta_path]
    · rw [hfieldsR.2.1, newWithMeta_path]
    · rw [hfieldsL.2.2.1, hfieldsR.2.2.1, newWithMeta_isDir, newWithMeta_isDir]
    · intro hnone
      have hstro : st = FStatus.rightOnly := by
        have h'' := hds
        unfold declStatus? at h''
        rw [hnone] at h''
        have hmemR : p ∈ right.map Prod.fst := by
          rcases mem_unionPaths.mp hp with h' | h'
          · exact absurd h' ((lookupMeta_eq_none_iff left p).mp hnone)
          · exact h'
        obtain ⟨m, hm⟩ := Option.isSome_iff_exists.mp
          ((lookupMeta_isSome_iff right p).mpr hmemR)
        rw [hm] at h''
        exact (Option.some.inj h'').symm
      subst hstro
      have hdecl : ∀ q : RPath, p ++ q ∈ unionPaths left right →
          declStatus? (lookupMeta left) (lookupMeta right) oracle (p ++ q) =
            some FStatus.rightOnly := by
        intro q hmem
        have hlnone : lookupMeta left (p ++ q) = none := by
          rw [lookupMeta_eq_none_iff]
          intro hmemL
          cases q with
          | nil =>
              rw [List.append_nil] at hmemL
              exact (lookupMeta_eq_none_iff left p).mp hnone hmemL
          | cons a b =>
              have hg := scanLike_closed hL (p ++ a :: b) hmemL p (a :: b) rfl
                hpne (by simp)
              rw [hnone] at hg
              simp at hg
        have hmemR : p ++ q ∈ right.map Prod.fst := by
          rcases mem_unionPaths.mp hmem with h' | h'
          · exact absurd h' ((lookupMeta_eq_none_iff left _).mp hlnone)
          · exact h'
        obtain ⟨m, hm⟩ := Option.isSome_iff_exists.mp
          ((lookupMeta_isSome_iff right _).mpr hmemR)
        unfold declStatus?
        rw [hlnone, hm]
      have hallL : ∀ (q : RPath) (x : FileNode),
          findPath l0 (p ++ q) = some x → x.status = FStatus.rightOnly := by
        intro q x hx
        have hmem : p ++ q ∈ unionPaths left right := by
          have hiso : (findPath l0 (p ++ q)).isSome = true := by rw [hx]; rfl
          rcases (hdl0 (p ++ q)).mp hiso with h' | h'
          · exact absurd h' (by simp [hpne])
          · exact h'
        obtain ⟨st', hds', hfl', _⟩ := hfacts0 (p ++ q) hmem
        have hst' : st' = FStatus.rightOnly := by
          have hdd := hdecl q hmem
          rw [hds'] at hdd
          exact Option.some.inj hdd
        obtain ⟨y, hy, hyf⟩ := Option.map_eq_some'.mp hfl'
        rw [hx] at hy
        have hys := (nodeFacts_fields hyf).2.2.2.1
        rw [newWithMeta_status] at hys
        rw [Option.some.inj hy, hys, hst']
      have hallR : ∀ (q : RPath) (x : FileNode),
          findPath r0 (p ++ q) = some x → x.status = FStatus.rightOnly := by
        intro q x hx
        have hmem : p ++ q ∈ unionPaths left right := by
          have hiso : (findPath r0 (p ++ q)).isSome = true := by rw [hx]; rfl
          rcases (hdr0 (p ++ q)).mp hiso with h' | h'
          · exact absurd h' (by simp [hpne])
          · exact h'
        obtain ⟨st', hds', _, hfr'⟩ := hfacts0 (p ++ q) hmem
        have hst' : st' = FStatus.rightOnly := by
          have hdd := hdecl q hmem
          rw [hds'] at hdd
          exact Option.some.inj hdd
        obtain ⟨y, hy, hyf⟩ := Option.map_eq_some'.mp hfr'
        rw [hx] at hy
        have hys := (nodeFacts_fields hyf).2.2.2.1
        rw [newWithMeta_status] at hys
        rw [Option.some.inj hy, hys, hst']
      have hAl : allStatus FStatus.rightOnly (sortTree n0l) = true :=
        allStatus_sortTree n0l (allStatus_subtree hwl0 hn0l hallL)
      have hAr : allStatus FStatus.rightOnly (sortTree n0r) = true :=
        allStatus_sortTree n0r (allStatus_subtree hwr0 hn0r hallR)
      have hnlst : nl.status = FStatus.rightOnly := by
        rcases hnlc with h' | h'
        · rw [h']; exact (allStatus_parts (allStatus_update _ hAl)).1
        · rw [h']; exact (allStatus_parts hAl).1
      have hnrst : nr.status = FStatus.rightOnly := by
        rcases hnrc with h' | h'
        · rw [h']; exact (allStatus_parts (allStatus_update _ hAr)).1
        · rw [h']; exact (allStatus_parts hAr).1
      refine ⟨?_, ?_, ?_, hnlst, hnrst⟩
      · rw [hfieldsL.1, newWithMeta_name]
        simp
      · rw [hfieldsL.2.2.2.2.1]
        simp
        exact newWithMeta_size_none _ _ _ _
      · rw [hfieldsL.2.2.2.2.2]
        simp
        exact newWithMeta_modified_none _ _ _ _
    · intro hnone
      have hstro : st = FStatus.leftOnly := by
        have h'' := hds
        unfold declStatus? at h''
        rw [hnone] at h''
        have hmemL : p ∈ left.map Prod.fst := by
          rcases mem_unionPaths.mp hp with h' | h'
          · exact h'
          · exact absurd h' ((lookupMeta_eq_none_iff right p).mp hnone)
        obtain ⟨m, hm⟩ := Option.isSome_iff_exists.mp
          ((lookupMeta_isSome_iff left p).mpr hmemL)
        rw [hm] at h''
        exact (Option.some.inj h'').symm
      subst hstro
      have hdecl : ∀ q : RPath, p ++ q ∈ unionPaths left right →
          declStatus? (lookupMeta left) (lookupMeta right) oracle (p ++ q) =
            some FStatus.leftOnly := by
        intro q hmem
        have hrnone : lookupMeta right (p ++ q) = none := by
          rw [lookupMeta_eq_none_iff]
          intro hmemR
          cases q with
          | nil =>
              rw [List.append_nil] at hmemR
              exact (lookupMeta_eq_none_iff right p).mp hnone hmemR
          | cons a b =>
              have hg := scanLike_closed hR (p ++ a :: b) hmemR p (a :: b) rfl
                hpne (by simp)
              rw [hnone] at hg
              simp at hg
        have hmemL : p ++ q ∈ left.map Prod.fst := by
          rcases mem_unionPaths.mp hmem with h' | h'
          · exact h'
          · exact absurd h' ((lookupMeta_eq_none_iff right _).mp hrnone)
        obtain ⟨m, hm⟩ := Option.isSome_iff_exists.mp
          ((lookupMeta_isSome_iff left _).mpr hmemL)
        unfold declStatus?
        rw [hrnone, hm]
      have hallL : ∀ (q : RPath) (x : FileNode),
          findPath l0 (p ++ q) = some x → x.status = FStatus.leftOnly := by
        intro q x hx
        have hmem : p ++ q ∈ unionPaths left right := by
          have hiso : (findPath l0 (p ++ q)).isSome = true := by rw [hx]; rfl
          rcases (hdl0 (p ++ q)).mp hiso with h' | h'
          · exact absurd h' (by simp [hpne])
          · exact h'
        obtain ⟨st', hds', hfl', _⟩ := hfacts0 (p ++ q) hmem
        have hst' : st' = FStatus.leftOnly := by
          have hdd := hdecl q hmem
          rw [hds'] at hdd
          exact Option.some.inj hdd
        obtain ⟨y, hy, hyf⟩ := Option.map_eq_some'.mp hfl'
        rw [hx] at hy
        have hys := (nodeFacts_fields hyf).2.2.2.1
        rw [newWithMeta_status] at hys
        rw [Option.some.inj hy, hys, hst']
      have hallR : ∀ (q : RPath) (x : FileNode),
          findPath r0 (p ++ q) = some x → x.status = FStatus.leftOnly := by
        intro q x hx
        have hmem : p ++ q ∈ unionPaths left right := by
          have hiso : (findPath r0 (p ++ q)).isSome = true := by rw [hx]; rfl
          rcases (hdr0 (p ++ q)).mp hiso with h' | h'
          · exact absurd h' (by simp [hpne])
          · exact h'
        obtain ⟨st', hds', _, hfr'⟩ := hfacts0 (p ++ q) hmem
        have hst' : st' = FStatus.leftOnly := by
          have hdd := hdecl q hmem
          rw [hds'] at hdd
          exact Option.some.inj hdd
        obtain ⟨y, hy, hyf⟩ := Option.map_eq_some'.mp hfr'
        rw [hx] at hy
        have hys := (nodeFacts_fields hyf).2.2.2.1
        rw [newWithMeta_status] at hys
        rw [Option.some.inj hy, hys, hst']
      have hAl : allStatus FStatus.leftOnly (sortTree n0l) = true :=
        allStatus_sortTree n0l (allStatus_subtree hwl0 hn0l hallL)
      have hAr : allStatus FStatus.leftOnly (sortTree n0r) = true :=
        allStatus_sortTree n0r (allStatus_subtree hwr0 hn0r hallR)
      have hnlst : nl.status = FStatus.leftOnly := by
        rcases hnlc with h' | h'
        · rw [h']; exact (allStatus_parts (allStatus_update _ hAl)).1
        · rw [h']; exact (allStatus_parts hAl).1
      have hnrst : nr.status = FStatus.leftOnly := by
        rcases hnrc with h' | h'
        · rw [h']; exact (allStatus_parts (allStatus_update _ hAr)).1
        · rw [h']; exact (allStatus_parts hAr).1
      refine ⟨?_, ?_, ?_, hnrst, hnlst⟩
      · rw [hfieldsR.1, newWithMeta_name]
        simp
      · rw [hfieldsR.2.2.2.2.1]
        simp
        exact newWithMeta_size_none _ _ _ _
      · rw [hfieldsR.2.2.2.2.2]
        simp
        exact newWithMeta_modified_none _ _ _ _

/-- A one-file left scan used to exercise the shape invariant concretely. -/
def scanLW : List (RPath × FsMeta) := [(["a"], ⟨false, 1, none⟩)]

/-- An empty right scan: the single left entry becomes an orphan. -/
def scanRW : List (RPath × FsMeta) := []

def orcW : RPath → Option Bool := fun _ => some true

/-- The trees as built by the insertion fold, before sorting and status
recomputation. -/
def lt0W : FileNode :=
  .mk "L" [] true .same
    [.mk "a" ["a"] false .leftOnly [] false (some 1) none] true none none

def rt0W : FileNode :=
  .mk "R" [] true .same
    [.mk "" ["a"] false .leftOnly [] false none none] true none none

/-- The final trees: sorted (trivially) and with the root folder status
recomputed from the single `LeftOnly` child. -/
def ltW : FileNode :=
  .mk "L" [] true .leftOnly
    [.mk "a" ["a"] false .leftOnly [] false (some 1) none] true none none

def rtW : FileNode :=
  .mk "R" [] true .leftOnly
    [.mk "" ["a"] false .leftOnly [] false none none] true none none

theorem unionW : unionPaths scanLW scanRW = [["a"]] := rfl

theorem foldW : List.foldlM (processPath (lookupMeta scanLW) (lookupMeta scanRW)
    orcW) (mkRoot "L", mkRoot "R") [(["a"] : RPath)] = some (lt0W, rt0W) := rfl

theorem sortW1 : sortTree lt0W = lt0W := by
  unfold lt0W
  rw [sortTree_mk]
  simp [List.insertionSort, List.orderedInsert, sortForest_cons, sortForest_nil,
    sortTree_mk]

theorem sortW2 : sortTree rt0W = rt0W := by
  unfold rt0W
  rw [sortTree_mk]
  simp [List.insertionSort, List.orderedInsert, sortForest_cons, sortForest_nil,
    sortTree_mk]

theorem updW1 : updateFolderStatus lt0W = ltW := rfl

theorem updW2 : updateFolderStatus rt0W = rtW := rfl

theorem fullW : fullCompare "L" "R" scanLW scanRW orcW = some (ltW, rtW) := by
  unfold fullCompare compareTreesPure
  rw [unionW, foldW, Option.map_some', sortW1, sortW2, updW1, updW2]

/-- Witness for C1 at a concrete pair of scans: one real file on the left, an
empty right scan; the invariant instantiates with both hypotheses checked by
evaluation. -/
theorem tree_shape_invariant_witness :
    scanLikeB scanLW = true ∧ scanLikeB scanRW = true ∧
    (mirror ltW rtW = true ∧
      ∀ p ∈ unionPaths scanLW scanRW,
        ∃ nl nr : FileNode,
          findPath ltW p = some nl ∧ findPath rtW p = some nr ∧
          nl.path = p ∧ nr.path = p ∧ nl.isDir = nr.isDir ∧
          (lookupMeta scanLW p = none →
            nl.name = "" ∧ nl.size = none ∧ nl.modified = none ∧
            nl.status = FStatus.rightOnly ∧ nr.status = FStatus.rightOnly) ∧
          (lookupMeta scanRW p = none →
            nr.name = "" ∧ nr.size = none ∧ nr.modified = none ∧
            nr.status = FStatus.leftOnly ∧ nl.status = FStatus.leftOnly)) :=
  ⟨by decide, by decide,
    tree_shape_invariant "L" "R" scanLW scanRW orcW ltW rtW
      (by decide) (by decide) fullW⟩

end Tudiff
